import Mathlib

/-!
Shallow embedding of the melody-comparison / difficulty-scoring engine in
`src/algorithms/melody_matcher.py` (class `MelodyMatcher`), together with
proofs settling the claims about it.

Modelling conventions:
* Python `int` pitches are `ℤ`; onset/duration milliseconds are `ℚ`
  (the Python floats carry exact decimal constants here); scores that pass
  through fractional powers (`** 1.5`, `** 1.3`, `** 1.2`, `** 1.15`) live
  in `ℝ` via `Real.rpow`.
* `float('inf')` entries of the DTW matrices are modelled by `⊤` of
  `WithTop ℚ` (only border cells are ever infinite; addition and `min`
  on `WithTop ℚ` agree with IEEE arithmetic on the values that occur).
* Optional timing arguments are `Option (List ℚ)`; Python truthiness of a
  possibly-missing list (`if timings1:`) is `truthy`.
* Python list indexing `xs[i]` appears as `List.getD i 0`; every access the
  code performs is in range whenever the caller obeys the documented
  parallel-length invariant, so the default is never observed there.
* `numpy` fancy indexing in `cosine_similarity` (negative indices wrap,
  out-of-range indices raise, `np.zeros` of a negative size raises) is made
  explicit, and the function returns `Except String ℝ`, as does
  `compare_melodies`, so that raised exceptions are first-class values.
-/

namespace MelodyMatcher

/-- Python `max(l)` for a non-empty list, with an explicit default for `[]`
(the source always guards emptiness before calling `max`/`min`). -/
def listMaxD (l : List ℤ) (d : ℤ) : ℤ :=
  match l with
  | [] => d
  | h :: t => t.foldl max h

/-- Python `min(l)` with an explicit default for `[]`. -/
def listMinD (l : List ℤ) (d : ℤ) : ℤ :=
  match l with
  | [] => d
  | h :: t => t.foldl min h

theorem foldl_max_le_init (t : List ℤ) (a : ℤ) : a ≤ t.foldl max a := by
  induction t generalizing a with
  | nil => exact le_refl a
  | cons h t ih => exact le_trans (le_max_left a h) (ih (max a h))

theorem le_foldl_max (t : List ℤ) (a : ℤ) (x : ℤ) (hx : x ∈ t) :
    x ≤ t.foldl max a := by
  induction t generalizing a with
  | nil => cases hx
  | cons h t ih =>
    rcases List.mem_cons.mp hx with rfl | hx'
    · exact le_trans (le_max_right a x) (foldl_max_le_init t (max a x))
    · exact ih (max a h) hx'

theorem mem_le_listMaxD (l : List ℤ) (d : ℤ) (x : ℤ) (hx : x ∈ l) :
    x ≤ listMaxD l d := by
  cases l with
  | nil => cases hx
  | cons h t =>
    rcases List.mem_cons.mp hx with rfl | hx'
    · exact foldl_max_le_init t x
    · exact le_foldl_max t h x hx'

theorem foldl_min_le_init (t : List ℤ) (a : ℤ) : t.foldl min a ≤ a := by
  induction t generalizing a with
  | nil => exact le_refl a
  | cons h t ih => exact le_trans (ih (min a h)) (min_le_left a h)

theorem foldl_min_le (t : List ℤ) (a : ℤ) (x : ℤ) (hx : x ∈ t) :
    t.foldl min a ≤ x := by
  induction t generalizing a with
  | nil => cases hx
  | cons h t ih =>
    rcases List.mem_cons.mp hx with rfl | hx'
    · exact le_trans (foldl_min_le_init t (min a x)) (min_le_right a x)
    · exact ih (min a h) hx'

theorem listMinD_le_mem (l : List ℤ) (d : ℤ) (x : ℤ) (hx : x ∈ l) :
    listMinD l d ≤ x := by
  cases l with
  | nil => cases hx
  | cons h t =>
    rcases List.mem_cons.mp hx with rfl | hx'
    · exact foldl_min_le_init t x
    · exact foldl_min_le t h x hx'

/-- Shift-equivariance of the Python `max` over a non-empty list. -/
theorem listMaxD_map_add (l : List ℤ) (d k : ℤ) (hl : l ≠ []) :
    listMaxD (l.map (fun p => p + k)) d = listMaxD l d + k := by
  cases l with
  | nil => exact absurd rfl hl
  | cons h t =>
    simp only [listMaxD, List.map_cons]
    clear hl
    induction t generalizing h with
    | nil => rfl
    | cons h' t ih =>
      simp only [List.map_cons, List.foldl_cons]
      rw [max_add_add_right h h' k]
      exact ih (max h h')

/-- Shift-equivariance of the Python `min` over a non-empty list. -/
theorem listMinD_map_add (l : List ℤ) (d k : ℤ) (hl : l ≠ []) :
    listMinD (l.map (fun p => p + k)) d = listMinD l d + k := by
  cases l with
  | nil => exact absurd rfl hl
  | cons h t =>
    simp only [listMinD, List.map_cons]
    clear hl
    induction t generalizing h with
    | nil => rfl
    | cons h' t ih =>
      simp only [List.map_cons, List.foldl_cons]
      rw [min_add_add_right h h' k]
      exact ih (min h h')

/-! ## Difficulty estimator (`get_difficulty_estimate`, lines 423-504) -/

/-- The four normalized difficulty factors (the `'factors'` sub-dict). -/
structure DifficultyFactors where
  length : ℚ
  interval_complexity : ℚ
  range : ℚ
  unique_notes : ℚ
  deriving Repr, DecidableEq

/-- The raw measurements (the `'analysis'` sub-dict, only present when the
melody has at least two notes). -/
structure DifficultyAnalysis where
  length : ℕ
  average_interval : ℚ
  range_semitones : ℤ
  unique_notes : ℕ
  deriving Repr, DecidableEq

/-- The dictionary returned by `get_difficulty_estimate`.  The
`difficulty_level` and `analysis` keys are absent (`none`) in the
short-melody branch of the source. -/
structure DifficultyResult where
  difficulty_score : ℚ
  difficulty_level : Option String
  factors : DifficultyFactors
  analysis : Option DifficultyAnalysis
  deriving Repr, DecidableEq

/-- `_difficulty_level_from_score` (lines 493-504). -/
def difficulty_level_from_score (score : ℚ) : String :=
  if score < 0.2 then "Very Easy"
  else if score < 0.4 then "Easy"
  else if score < 0.6 then "Intermediate"
  else if score < 0.8 then "Hard"
  else "Very Hard"

/-- The consecutive absolute intervals
`[abs(melody[i] - melody[i-1]) for i in range(1, len(melody))]` (line 452). -/
def intervalList (melody : List ℤ) : List ℤ :=
  List.zipWith (fun prev next => |next - prev|) melody melody.tail

/-- `get_difficulty_estimate` (lines 423-491). -/
def get_difficulty_estimate (melody : List ℤ) : DifficultyResult :=
  if melody.length < 2 then
    { difficulty_score := 0
      difficulty_level := none
      factors := { length := 0, interval_complexity := 0, range := 0, unique_notes := 0 }
      analysis := none }
  else
    let length := melody.length
    let length_factor : ℚ := min ((length : ℚ) / 32) 1
    let intervals := intervalList melody
    let avg_interval : ℚ :=
      if intervals.length ≠ 0 then ((intervals.sum : ℚ) / (intervals.length : ℚ)) else 0
    let interval_factor : ℚ := min (avg_interval / 12) 1
    let melody_range : ℤ :=
      if melody.isEmpty then 0 else listMaxD melody 0 - listMinD melody 0
    let range_factor : ℚ := min ((melody_range : ℚ) / 24) 1
    let unique_notes := melody.toFinset.card
    let unique_factor : ℚ := min ((unique_notes : ℚ) / 12) 1
    let difficulty_score : ℚ :=
      0.3 * length_factor + 0.3 * interval_factor + 0.2 * range_factor + 0.2 * unique_factor
    { difficulty_score := difficulty_score
      difficulty_level := some (difficulty_level_from_score difficulty_score)
      factors :=
        { length := length_factor
          interval_complexity := interval_factor
          range := range_factor
          unique_notes := unique_factor }
      analysis :=
        some
          { length := length
            average_interval := avg_interval
            range_semitones := melody_range
            unique_notes := unique_notes } }

/-! ## Note-name lookup (`self.note_range`, lines 16-23, and `.get` uses) -/

/-- The `note_range` dictionary: MIDI pitches 48-71 to note names. -/
def note_range : List (ℤ × String) :=
  [(48, "C3"), (49, "C#3"), (50, "D3"), (51, "D#3"), (52, "E3"), (53, "F3"),
   (54, "F#3"), (55, "G3"), (56, "G#3"), (57, "A3"), (58, "A#3"), (59, "B3"),
   (60, "C4"), (61, "C#4"), (62, "D4"), (63, "D#4"), (64, "E4"), (65, "F4"),
   (66, "F#4"), (67, "G4"), (68, "G#4"), (69, "A4"), (70, "A#4"), (71, "B4")]

/-- `self.note_range.get(note, f"Unknown({note})")`. -/
def noteRangeGet (n : ℤ) : String :=
  (note_range.lookup n).getD ("Unknown(" ++ toString n ++ ")")

/-! ## Levenshtein distance (`levenshtein_distance`, lines 219-242)

The source fills an `(n+1) × (m+1)` table `dp`; `levMat s1 s2 i j` is the
table entry `dp[i][j]`, defined by the same base cases and recurrence, with
rows built as functions so the whole table is structurally computable. -/

/-- Row `i+1` of the Levenshtein table, given row `i` as `prev`:
`dp[i+1][0] = i+1`, and for `j+1` the source's match/min-of-three rule
(cell values reference `seq1[i]` and `seq2[j]`). -/
def levRow (s1 s2 : List ℤ) (i : ℕ) (prev : ℕ → ℕ) : ℕ → ℕ
  | 0 => i + 1
  | j + 1 =>
    if s1.getD i 0 = s2.getD j 0 then prev j
    else
      min (prev (j + 1) + 1)          -- deletion    dp[i][j+1] + 1
        (min (levRow s1 s2 i prev j + 1)  -- insertion dp[i+1][j] + 1
          (prev j + 1))               -- substitution dp[i][j] + 1

/-- The full Levenshtein table: `levMat s1 s2 i j = dp[i][j]`. -/
def levMat (s1 s2 : List ℤ) : ℕ → ℕ → ℕ
  | 0 => fun j => j
  | i + 1 => levRow s1 s2 i (levMat s1 s2 i)

/-- `levenshtein_distance(seq1, seq2) = dp[n][m]`. -/
def levenshtein_distance (s1 s2 : List ℤ) : ℕ :=
  levMat s1 s2 s1.length s2.length

/-! ## Longest common subsequence (`lcs_length`, lines 244-258) -/

/-- Row `i+1` of the LCS table given row `i`. -/
def lcsRow (s1 s2 : List ℤ) (i : ℕ) (prev : ℕ → ℕ) : ℕ → ℕ
  | 0 => 0
  | j + 1 =>
    if s1.getD i 0 = s2.getD j 0 then prev j + 1
    else max (prev (j + 1)) (lcsRow s1 s2 i prev j)

/-- The full LCS table: `lcsMat s1 s2 i j = dp[i][j]`. -/
def lcsMat (s1 s2 : List ℤ) : ℕ → ℕ → ℕ
  | 0 => fun _ => 0
  | i + 1 => lcsRow s1 s2 i (lcsMat s1 s2 i)

/-- `lcs_length(seq1, seq2) = dp[n][m]`. -/
def lcs_length (s1 s2 : List ℤ) : ℕ :=
  lcsMat s1 s2 s1.length s2.length

/-! ## Cosine similarity (`cosine_similarity`, lines 260-287)

The source allocates `np.zeros(max_note)` and increments `vec[note]` for
every note.  `np.zeros` of a negative size raises `ValueError`; a numpy
index `note` is valid iff `-max_note ≤ note < max_note`, negative indices
wrapping to `note + max_note`, and anything else raises `IndexError`.  Both
raises escape `cosine_similarity` (and hence `compare_melodies`). -/

/-- `max_note = max(max(seq1) if seq1 else 0, max(seq2) if seq2 else 0) + 1`. -/
def cosMaxNote (s1 s2 : List ℤ) : ℤ :=
  max (listMaxD s1 0) (listMaxD s2 0) + 1

/-- The effective numpy index for `vec[note]` on a vector of size
`maxNote`: in-range non-negative indices are themselves, in-range negative
indices wrap, anything else is out of bounds. -/
def effIndex (maxNote note : ℤ) : Option ℕ :=
  if 0 ≤ note ∧ note < maxNote then some note.toNat
  else if -maxNote ≤ note ∧ note < 0 then some (note + maxNote).toNat
  else none

/-- All effective indices of a sequence, or `none` if some access raises. -/
def histIndices (maxNote : ℤ) (s : List ℤ) : Option (List ℕ) :=
  s.mapM (effIndex maxNote)

/-- Histogram dot product `np.dot(vec1, vec2)` where `vec[v]` counts the
occurrences of effective index `v`. -/
def histDot (a b : List ℕ) (N : ℕ) : ℚ :=
  ∑ v ∈ Finset.range N, (a.count v : ℚ) * (b.count v : ℚ)

/-- Squared Euclidean norm of a histogram (`np.linalg.norm(vec) ** 2`). -/
def histNormSq (a : List ℕ) (N : ℕ) : ℚ :=
  ∑ v ∈ Finset.range N, (a.count v : ℚ) ^ 2

open Classical in
/-- `cosine_similarity(seq1, seq2)` (lines 260-287). -/
noncomputable def cosine_similarity (s1 s2 : List ℤ) : Except String ℝ :=
  let max_note := cosMaxNote s1 s2
  if max_note < 0 then Except.error "ValueError: negative dimensions are not allowed"
  else
    match histIndices max_note s1, histIndices max_note s2 with
    | some a, some b =>
      let N := max_note.toNat
      let dot_product : ℝ := (histDot a b N : ℝ)
      let norm1 : ℝ := Real.sqrt (histNormSq a N : ℝ)
      let norm2 : ℝ := Real.sqrt (histNormSq b N : ℝ)
      if norm1 = 0 ∨ norm2 = 0 then Except.ok 0
      else Except.ok ((dot_product / (norm1 * norm2)) ^ (1.5 : ℝ))
    | _, _ => Except.error "IndexError: index out of bounds"

/-! ## Score normalization (`normalize_score`, lines 289-298) -/

/-- `normalize_score(score, max_score)`: invert to a 0-1 similarity (0 when
`max_score` is not positive) and apply the `** 1.5` discrimination curve. -/
noncomputable def normalize_score (score max_score : ℚ) : ℝ :=
  (((if max_score > 0 then 1 - score / max_score else 0 : ℚ)) : ℝ) ^ (1.5 : ℝ)

/-! ## Temporal aligner (`dtw_distance`, lines 25-217) -/

/-- Python truthiness of an optional list argument (`if timings1:`):
present and non-empty. -/
def truthy (o : Option (List ℚ)) : Bool :=
  match o with
  | none => false
  | some l => !l.isEmpty

/-- The `timings1 and timings2 and durations1 and durations2` condition
used at lines 182, 364 and 395. -/
def hasTiming (t1 t2 d1 d2 : Option (List ℚ)) : Bool :=
  truthy t1 && truthy t2 && truthy d1 && truthy d2

/-- Element access `xs[i]` on an optional timing list.  In the source this
is plain Python indexing, which raises `IndexError` when a truthy timing
list is shorter than its melody (e.g. `timings1[i-1]` at line 96); the
embedding totalizes that access with a default.  The default is never
observable in the source's behaviour under the documented caller
invariant — every supplied timing list has the same length as its paired
note sequence — so theorems that quantify over supplied timing data carry
that invariant as a hypothesis; outside it the source's behaviour (a
raise) is not modelled here. -/
def getQ (o : Option (List ℚ)) (i : ℕ) : ℚ :=
  (o.getD []).getD i 0

/-- Lines 66-69: shift the attempt's onsets so its first onset coincides
with the target's first onset (`adjusted_timings2`). -/
def adjustTimings (t1 t2 : Option (List ℚ)) : Option (List ℚ) :=
  if truthy t1 && truthy t2 then
    (t2.getD []).map (fun t => t - ((t2.getD []).headD 0 - (t1.getD []).headD 0))
  else t2

/-- Pitch step cost (lines 83-85):
`min(abs(seq1[i] - seq2[j]) / 24.0 * 1.5, 1.0)`. -/
def pitchStep (s1 s2 : List ℤ) (i j : ℕ) : ℚ :=
  min ((((s1.getD i 0 - s2.getD j 0).natAbs : ℚ) / 24) * 1.5) 1

/-- Timing step cost (lines 96-106): onset error normalized by 600 ms and
duration error by 350 ms, each scaled by 1.2 and capped at 1, combined
`0.7 * onset + 0.3 * duration`. -/
def timingStep (t1 adj2 d1 d2 : Option (List ℚ)) (i j : ℕ) : ℚ :=
  let timing_diff := min ((|getQ t1 i - getQ adj2 j| / 600) * 1.2) 1
  let duration_diff := min ((|getQ d1 i - getQ d2 j| / 350) * 1.2) 1
  0.7 * timing_diff + 0.3 * duration_diff

/-- Combined step cost (lines 94-119): the timing component is computed
only when all four (adjusted) timing lists are truthy, and is added only
when `timings1` is truthy. -/
def combinedStep (s1 s2 : List ℤ) (t1 adj2 d1 d2 : Option (List ℚ))
    (pitch_weight timing_weight : ℚ) (i j : ℕ) : ℚ :=
  let timing_cost : ℚ :=
    if truthy t1 && truthy adj2 && truthy d1 && truthy d2 then timingStep t1 adj2 d1 d2 i j
    else 0
  pitch_weight * pitchStep s1 s2 i j +
    (if truthy t1 then timing_weight * timing_cost else 0)

/-- Row `i+1` of a DTW cost matrix, given row `i` as `prev` and the step
cost `step j` of cell `(i+1, j+1)`: border cell `⊤` (`float('inf')`), and
the classic recurrence `step + min(up, left, diagonal)`. -/
def dtwDPRow (step : ℕ → ℚ) (prev : ℕ → WithTop ℚ) : ℕ → WithTop ℚ
  | 0 => ⊤
  | j + 1 =>
    (step j : WithTop ℚ) +
      min (prev (j + 1)) (min (dtwDPRow step prev j) (prev j))

/-- A DTW cost matrix: `[0,0] = 0`, the rest of row/column 0 is `⊤`, and
interior cells follow the recurrence of `dtwDPRow`. -/
def dtwDP (step : ℕ → ℕ → ℚ) : ℕ → ℕ → WithTop ℚ
  | 0 => fun j => if j = 0 then (0 : WithTop ℚ) else ⊤
  | i + 1 => dtwDPRow (step i) (dtwDP step i)

/-- The pitch-only cost matrix (lines 53-55 and 87-91). -/
def pitch_matrix (s1 s2 : List ℤ) : ℕ → ℕ → WithTop ℚ :=
  dtwDP (pitchStep s1 s2)

/-- The degenerate timing matrix when no timing data is available
(line 116: `timing_matrix[i, j] = timing_matrix[i-1, j-1]`). -/
def timingMatDegen : ℕ → ℕ → WithTop ℚ
  | 0, j => if j = 0 then (0 : WithTop ℚ) else ⊤
  | _ + 1, 0 => ⊤
  | i + 1, j + 1 => timingMatDegen i j

/-- The timing cost matrix (lines 57-59, 108-116); its final corner is
never read by the source (the returned timing similarity is the aggregate
timing accuracy instead). -/
def timing_matrix (t1 adj2 d1 d2 : Option (List ℚ)) : ℕ → ℕ → WithTop ℚ :=
  if truthy t1 && truthy adj2 && truthy d1 && truthy d2 then
    dtwDP (timingStep t1 adj2 d1 d2)
  else timingMatDegen

/-- The combined cost matrix `dtw_matrix` (lines 48-50 and 119-124). -/
def dtw_matrix (s1 s2 : List ℤ) (t1 t2 d1 d2 : Option (List ℚ))
    (pitch_weight timing_weight : ℚ) : ℕ → ℕ → WithTop ℚ :=
  dtwDP (combinedStep s1 s2 t1 (adjustTimings t1 t2) d1 d2 pitch_weight timing_weight)

/-- The traceback loop (lines 127-142), in reverse (collection) order:
from cell `(i, j)` of the matrix, record `(i-1, j-1)`, then move to
whichever of diagonal/up/left has the minimal combined value, testing
`min_val == diagonal` first, then `min_val == up`; stop at row or column 0.
`fuel` bounds the iteration count (`i + j` suffices, as each step strictly
decreases `i + j`). -/
def tracebackAux (M : ℕ → ℕ → WithTop ℚ) : ℕ → ℕ → ℕ → List (ℕ × ℕ)
  | 0, _, _ => []
  | _ + 1, 0, _ => []
  | _ + 1, _ + 1, 0 => []
  | fuel + 1, i + 1, j + 1 =>
    let diag := M i j
    let up := M i (j + 1)
    let left := M (i + 1) j
    let min_val := min diag (min up left)
    (i, j) ::
      (if min_val = diag then tracebackAux M fuel i j
       else if min_val = up then tracebackAux M fuel i (j + 1)
       else tracebackAux M fuel (i + 1) j)

/-- The forward alignment path (`path.reverse()`, line 143). -/
def dtw_path (M : ℕ → ℕ → WithTop ℚ) (n m : ℕ) : List (ℕ × ℕ) :=
  (tracebackAux M (n + m) n m).reverse

/-- One record of the `note_details` list (lines 146-175); the timing
fields are present only when all four timing lists are truthy. -/
structure NoteDetail where
  index : ℕ
  target_note : ℤ
  target_note_name : String
  played_note : ℤ
  played_note_name : String
  is_correct_pitch : Bool
  onset_error : Option ℚ
  duration_error : Option ℚ
  target_onset : Option ℚ
  played_onset : Option ℚ
  target_duration : Option ℚ
  played_duration : Option ℚ
  deriving Repr, DecidableEq

/-- The `note_details` construction loop (lines 146-175). -/
def noteDetails (s1 s2 : List ℤ) (t1 t2 d1 d2 : Option (List ℚ))
    (path : List (ℕ × ℕ)) : List NoteDetail :=
  let adj2 := adjustTimings t1 t2
  path.enum.map (fun p =>
    let idx := p.1
    let i := p.2.1
    let j := p.2.2
    let base : NoteDetail :=
      { index := idx
        target_note := s1.getD i 0
        target_note_name := noteRangeGet (s1.getD i 0)
        played_note := s2.getD j 0
        played_note_name := noteRangeGet (s2.getD j 0)
        is_correct_pitch := s1.getD i 0 == s2.getD j 0
        onset_error := none, duration_error := none
        target_onset := none, played_onset := none
        target_duration := none, played_duration := none }
    if truthy t1 && truthy adj2 && truthy d1 && truthy d2 then
      { base with
          onset_error := some |getQ t1 i - getQ adj2 j|
          duration_error := some |getQ d1 i - getQ d2 j|
          target_onset := some (getQ t1 i)
          played_onset := some (getQ adj2 j)
          target_duration := some (getQ d1 i)
          played_duration := some (getQ d2 j) }
    else base)

/-- Aggregate timing accuracy (lines 182-200): per-pair onset/duration
errors from the details, converted to `[0,1]` goodness, raised to the 1.2
power, averaged, and combined `0.7 * onset + 0.3 * duration`; `0.0` when
timing data is missing. -/
noncomputable def dtwTimingAccuracy (details : List NoteDetail)
    (t1 t2 d1 d2 : Option (List ℚ)) : ℝ :=
  if hasTiming t1 t2 d1 d2 then
    let onset_errors := details.filterMap (fun d => d.onset_error)
    let duration_errors := details.filterMap (fun d => d.duration_error)
    let norm_onset : List ℝ :=
      onset_errors.map (fun e => (((1 - min (e / 600) 1 : ℚ)) : ℝ) ^ (1.2 : ℝ))
    let norm_duration : List ℝ :=
      duration_errors.map (fun e => (((1 - min (e / 350) 1 : ℚ)) : ℝ) ^ (1.2 : ℝ))
    let onset_accuracy : ℝ :=
      if norm_onset.length ≠ 0 then norm_onset.sum / (norm_onset.length : ℝ) else 0
    let duration_accuracy : ℝ :=
      if norm_duration.length ≠ 0 then norm_duration.sum / (norm_duration.length : ℝ) else 0
    0.7 * onset_accuracy + 0.3 * duration_accuracy
  else 0

/-- `adjusted_max_dist = min(n, m) * 0.5` (line 205). -/
def adjusted_max_dist (n m : ℕ) : ℚ :=
  (min n m : ℚ) * 0.5

/-- `min(d / adjusted_max_dist, 1.0)` on a possibly-infinite matrix corner
(with `float('inf') / adj = inf` and `min(inf, 1.0) = 1.0`; the corner is
in fact always finite for non-empty inputs). -/
def capDiv (d : WithTop ℚ) (adj : ℚ) : ℚ :=
  match d with
  | none => 1
  | some q => min (q / adj) 1

/-- `dtw_distance` (lines 25-217): returns
`(normalized_combined, normalized_pitch, normalized_timing, note_details)`. -/
noncomputable def dtw_distance (s1 s2 : List ℤ) (t1 t2 d1 d2 : Option (List ℚ))
    (pitch_weight timing_weight : ℚ) : ℝ × ℝ × ℝ × List NoteDetail :=
  let n := s1.length
  let m := s2.length
  let M := dtw_matrix s1 s2 t1 t2 d1 d2 pitch_weight timing_weight
  let path := dtw_path M n m
  let details := noteDetails s1 s2 t1 t2 d1 d2 path
  let adj := adjusted_max_dist n m
  let normalized_combined : ℝ :=
    (((1 - capDiv (M n m) adj : ℚ)) : ℝ) ^ (1.5 : ℝ)
  let normalized_pitch : ℝ :=
    (((1 - capDiv (pitch_matrix s1 s2 n m) adj : ℚ)) : ℝ) ^ (1.5 : ℝ)
  let normalized_timing : ℝ := dtwTimingAccuracy details t1 t2 d1 d2
  (normalized_combined, normalized_pitch, normalized_timing, details)

/-! ## Score compositor (`compare_melodies`, lines 300-421) -/

/-- The fixed `self.weights` dictionary (lines 7-13). -/
structure Weights where
  dtw_pitch : ℚ
  dtw_timing : ℚ
  levenshtein : ℚ
  lcs : ℚ
  cosine : ℚ
  deriving Repr, DecidableEq

/-- `self.weights` values. -/
def weights : Weights :=
  { dtw_pitch := 0.4, dtw_timing := 0.3, levenshtein := 0.15, lcs := 0.1, cosine := 0.05 }

/-- Line 375: `sum(weight for algo, weight in self.weights.items() if
'timing' not in algo)` — the only key containing `"timing"` is
`dtw_timing`, so this sums the other four weights. -/
def pitch_weight_sum : ℚ :=
  weights.dtw_pitch + weights.levenshtein + weights.lcs + weights.cosine

/-- The `normalized_scores` dictionary (lines 346-353). -/
structure IndividualScores where
  dtw_combined : ℝ
  dtw_pitch : ℝ
  dtw_timing : ℝ
  levenshtein : ℝ
  lcs : ℝ
  cosine : ℝ

/-- The dictionary returned by `compare_melodies`.  `individual_scores` is
`none` for the empty-input short-circuit (empty dict in the source);
`onset_accuracy`/`duration_accuracy` are present only when timing data was
supplied and the corresponding error list is non-empty. -/
structure CompareResult where
  final_score : ℝ
  pitch_accuracy : ℝ
  timing_accuracy : ℝ
  individual_scores : Option IndividualScores
  note_details : List NoteDetail
  onset_accuracy : Option ℝ
  duration_accuracy : Option ℝ

/-- The zero-valued result of the empty-input short-circuit (lines 317-324). -/
def zeroCompareResult : CompareResult :=
  { final_score := 0, pitch_accuracy := 0, timing_accuracy := 0
    individual_scores := none, note_details := []
    onset_accuracy := none, duration_accuracy := none }

/-- The result built by `compare_melodies` (lines 326-421) once the
empty-input short-circuit has been passed and `cosine_similarity` has
returned `cosine_score`. -/
noncomputable def compareOkBody (melody1 melody2 : List ℤ)
    (t1 t2 d1 d2 : Option (List ℚ)) (cosine_score : ℝ) : CompareResult :=
    let D := dtw_distance melody1 melody2 t1 t2 d1 d2 0.6 0.4
    let dtw_combined := D.1
    let dtw_pitch := D.2.1
    let dtw_timing := D.2.2.1
    let note_details := D.2.2.2
    let levenshtein_score := levenshtein_distance melody1 melody2
      let lcs_score := lcs_length melody1 melody2
      let max_levenshtein := max melody1.length melody2.length
      let max_lcs := min melody1.length melody2.length
      let normalized_levenshtein := normalize_score (levenshtein_score : ℚ) (max_levenshtein : ℚ)
      let normalized_lcs : ℝ :=
        (((if 0 < max_lcs then (lcs_score : ℚ) / (max_lcs : ℚ) else 0 : ℚ)) : ℝ) ^ (1.5 : ℝ)
      let normalized_scores : IndividualScores :=
        { dtw_combined := dtw_combined, dtw_pitch := dtw_pitch, dtw_timing := dtw_timing
          levenshtein := normalized_levenshtein, lcs := normalized_lcs, cosine := cosine_score }
      let exact_matches := note_details.countP (fun d => d.is_correct_pitch)
      let total_notes := note_details.length
      let pitch_accuracy_base : ℚ :=
        if 0 < total_notes then (exact_matches : ℚ) / (total_notes : ℚ) else 0
      let pitch_accuracy : ℝ := ((pitch_accuracy_base : ℝ)) ^ (1.3 : ℝ)
      let final_base : ℝ :=
        if hasTiming t1 t2 d1 d2 then
          (weights.dtw_pitch : ℝ) * normalized_scores.dtw_pitch +
            (weights.dtw_timing : ℝ) * normalized_scores.dtw_timing +
            (weights.levenshtein : ℝ) * normalized_scores.levenshtein +
            (weights.lcs : ℝ) * normalized_scores.lcs +
            (weights.cosine : ℝ) * normalized_scores.cosine
        else
          ((weights.dtw_pitch : ℝ) * normalized_scores.dtw_pitch +
            (weights.levenshtein : ℝ) * normalized_scores.levenshtein +
            (weights.lcs : ℝ) * normalized_scores.lcs +
            (weights.cosine : ℝ) * normalized_scores.cosine) / (pitch_weight_sum : ℝ)
      let final_score : ℝ := final_base ^ (1.15 : ℝ)
      let timing_supplied := hasTiming t1 t2 d1 d2
      let onset_errors := note_details.filterMap (fun d => d.onset_error)
      let duration_errors := note_details.filterMap (fun d => d.duration_error)
      let onset_accuracy : Option ℝ :=
        if timing_supplied ∧ ¬note_details.isEmpty ∧ ¬onset_errors.isEmpty then
          some ((onset_errors.map
            (fun e => (((1 - min (e / 600) 1 : ℚ)) : ℝ) ^ (1.2 : ℝ))).sum /
              (onset_errors.length : ℝ))
        else none
      let duration_accuracy : Option ℝ :=
        if timing_supplied ∧ ¬note_details.isEmpty ∧ ¬duration_errors.isEmpty then
          some ((duration_errors.map
            (fun e => (((1 - min (e / 350) 1 : ℚ)) : ℝ) ^ (1.2 : ℝ))).sum /
              (duration_errors.length : ℝ))
        else none
      { final_score := final_score
        pitch_accuracy := pitch_accuracy
        timing_accuracy := if timing_supplied then dtw_timing else 0
        individual_scores := some normalized_scores
        note_details := note_details
        onset_accuracy := onset_accuracy
        duration_accuracy := duration_accuracy }

/-- `compare_melodies` (lines 300-421).  The only exception that can escape
is the one raised by `cosine_similarity`. -/
noncomputable def compare_melodies (melody1 melody2 : List ℤ)
    (t1 t2 d1 d2 : Option (List ℚ)) : Except String CompareResult :=
  if melody1.isEmpty || melody2.isEmpty then Except.ok zeroCompareResult
  else
    match cosine_similarity melody1 melody2 with
    | Except.error e => Except.error e
    | Except.ok cosine_score =>
      Except.ok (compareOkBody melody1 melody2 t1 t2 d1 d2 cosine_score)

/-! ## Lemmas about the difficulty estimator -/

theorem intervalList_cons_cons (a b : ℤ) (t : List ℤ) :
    intervalList (a :: b :: t) = |b - a| :: intervalList (b :: t) := rfl

theorem intervalList_nonneg (l : List ℤ) : ∀ x ∈ intervalList l, 0 ≤ x := by
  induction l with
  | nil => intro x hx; cases hx
  | cons a t ih =>
    cases t with
    | nil => intro x hx; cases hx
    | cons b t' =>
      intro x hx
      rw [intervalList_cons_cons] at hx
      rcases List.mem_cons.mp hx with rfl | hx'
      · exact abs_nonneg _
      · exact ih x hx'

theorem intervalList_map_add (l : List ℤ) (k : ℤ) :
    intervalList (l.map (fun p => p + k)) = intervalList l := by
  induction l with
  | nil => rfl
  | cons a t ih =>
    cases t with
    | nil => rfl
    | cons b t' =>
      simp only [List.map_cons] at ih ⊢
      rw [intervalList_cons_cons, intervalList_cons_cons, ih]
      congr 1
      ring_nf

theorem toFinset_card_map_add (l : List ℤ) (k : ℤ) :
    (l.map (fun p => p + k)).toFinset.card = l.toFinset.card := by
  have himg : (l.map (fun p => p + k)).toFinset = l.toFinset.image (fun p => p + k) := by
    ext x
    simp only [List.mem_toFinset, List.mem_map, Finset.mem_image]
  rw [himg, Finset.card_image_of_injective _ (add_left_injective k)]

/-- C10: `get_difficulty_estimate` is invariant under transposition: adding
a constant `k` to every pitch changes neither the difficulty score, nor the
level label, nor any factor, nor any raw analysis measurement. -/
theorem difficulty_transposition_invariant (melody : List ℤ) (k : ℤ) :
    get_difficulty_estimate (melody.map (fun p => p + k)) = get_difficulty_estimate melody := by
  by_cases h : melody.length < 2
  · rw [get_difficulty_estimate, get_difficulty_estimate, List.length_map]
    rw [if_pos h, if_pos h]
  · have hne : melody ≠ [] := by
      intro he
      rw [he] at h
      exact h (by decide)
    rw [get_difficulty_estimate, get_difficulty_estimate, List.length_map]
    rw [if_neg h, if_neg h]
    have h1 := intervalList_map_add melody k
    have h2 := listMaxD_map_add melody 0 k hne
    have h3 := listMinD_map_add melody 0 k hne
    have h4 := toFinset_card_map_add melody k
    have h5 : (melody.map (fun p => p + k)).isEmpty = melody.isEmpty := by
      cases melody <;> rfl
    simp only [List.length_map, h1, h2, h3, h4, h5]
    have hrange : listMaxD melody 0 + k - (listMinD melody 0 + k) =
        listMaxD melody 0 - listMinD melody 0 := by ring
    rw [hrange]

/-- C8 (counterexample): on the empty melody the result of
`get_difficulty_estimate` carries no `difficulty_level` label and no raw
`analysis` measurements, contradicting the claim that every input melody
yields a result containing both. -/
theorem difficulty_empty_missing_label :
    (get_difficulty_estimate []).difficulty_level = none ∧
      (get_difficulty_estimate []).analysis = none := by
  constructor <;> rfl

theorem difficulty_level_thresholds (s : ℚ) :
    (s < 0.2 → difficulty_level_from_score s = "Very Easy") ∧
      (0.2 ≤ s ∧ s < 0.4 → difficulty_level_from_score s = "Easy") ∧
      (0.4 ≤ s ∧ s < 0.6 → difficulty_level_from_score s = "Intermediate") ∧
      (0.6 ≤ s ∧ s < 0.8 → difficulty_level_from_score s = "Hard") ∧
      (0.8 ≤ s → difficulty_level_from_score s = "Very Hard") := by
  rw [difficulty_level_from_score]
  refine ⟨?_, ?_, ?_, ?_, ?_⟩ <;> intro hs
  · rw [if_pos hs]
  · rw [if_neg (not_lt.mpr hs.1), if_pos hs.2]
  · rw [if_neg (by linarith [hs.1] : ¬s < 0.2), if_neg (not_lt.mpr hs.1), if_pos hs.2]
  · rw [if_neg (by linarith [hs.1] : ¬s < 0.2), if_neg (by linarith [hs.1] : ¬s < 0.4),
      if_neg (not_lt.mpr hs.1), if_pos hs.2]
  · rw [if_neg (by linarith : ¬s < 0.2), if_neg (by linarith : ¬s < 0.4),
      if_neg (by linarith : ¬s < 0.6), if_neg (not_lt.mpr hs)]

/-- C8 (amended): for melodies with at least two notes,
`get_difficulty_estimate` returns a difficulty score in `[0,1]`, the
five-level label determined by the 0.2/0.4/0.6/0.8 thresholds, four
normalized factors each in `[0,1]`, and the raw measurements. -/
theorem difficulty_result_fields (melody : List ℤ) (h2 : 2 ≤ melody.length) :
    (0 ≤ (get_difficulty_estimate melody).difficulty_score ∧
        (get_difficulty_estimate melody).difficulty_score ≤ 1) ∧
      (get_difficulty_estimate melody).difficulty_level =
        some (difficulty_level_from_score (get_difficulty_estimate melody).difficulty_score) ∧
      (∀ lab, (get_difficulty_estimate melody).difficulty_level = some lab →
        ((get_difficulty_estimate melody).difficulty_score < 0.2 → lab = "Very Easy") ∧
        (0.2 ≤ (get_difficulty_estimate melody).difficulty_score ∧
            (get_difficulty_estimate melody).difficulty_score < 0.4 → lab = "Easy") ∧
        (0.4 ≤ (get_difficulty_estimate melody).difficulty_score ∧
            (get_difficulty_estimate melody).difficulty_score < 0.6 → lab = "Intermediate") ∧
        (0.6 ≤ (get_difficulty_estimate melody).difficulty_score ∧
            (get_difficulty_estimate melody).difficulty_score < 0.8 → lab = "Hard") ∧
        (0.8 ≤ (get_difficulty_estimate melody).difficulty_score → lab = "Very Hard")) ∧
      (0 ≤ (get_difficulty_estimate melody).factors.length ∧
        (get_difficulty_estimate melody).factors.length ≤ 1) ∧
      (0 ≤ (get_difficulty_estimate melody).factors.interval_complexity ∧
        (get_difficulty_estimate melody).factors.interval_complexity ≤ 1) ∧
      (0 ≤ (get_difficulty_estimate melody).factors.range ∧
        (get_difficulty_estimate melody).factors.range ≤ 1) ∧
      (0 ≤ (get_difficulty_estimate melody).factors.unique_notes ∧
        (get_difficulty_estimate melody).factors.unique_notes ≤ 1) ∧
      (get_difficulty_estimate melody).analysis.isSome = true := by
  have hnotlt : ¬melody.length < 2 := not_lt.mpr h2
  have hne : melody ≠ [] := by
    intro he
    rw [he] at h2
    exact absurd h2 (by decide)
  obtain ⟨hd, tl, rfl⟩ : ∃ hd tl, melody = hd :: tl := by
    cases melody with
    | nil => exact absurd rfl hne
    | cons hd tl => exact ⟨hd, tl, rfl⟩
  rw [get_difficulty_estimate, if_neg hnotlt]
  dsimp only
  -- bounds for the four factors
  have hlen : (0 : ℚ) ≤ min (((hd :: tl).length : ℚ) / 32) 1 ∧
      min (((hd :: tl).length : ℚ) / 32) 1 ≤ 1 := by
    constructor
    · exact le_min (by positivity) zero_le_one
    · exact min_le_right _ _
  have havg : (0 : ℚ) ≤ (if (intervalList (hd :: tl)).length ≠ 0 then
      ((intervalList (hd :: tl)).sum : ℚ) / ((intervalList (hd :: tl)).length : ℚ) else 0) := by
    split
    · apply div_nonneg
      · exact_mod_cast List.sum_nonneg (intervalList_nonneg (hd :: tl))
      · positivity
    · exact le_refl 0
  have hint : (0 : ℚ) ≤ min ((if (intervalList (hd :: tl)).length ≠ 0 then
      ((intervalList (hd :: tl)).sum : ℚ) / ((intervalList (hd :: tl)).length : ℚ) else 0) / 12) 1 ∧
      min ((if (intervalList (hd :: tl)).length ≠ 0 then
      ((intervalList (hd :: tl)).sum : ℚ) / ((intervalList (hd :: tl)).length : ℚ) else 0) / 12) 1 ≤ 1 := by
    constructor
    · exact le_min (by positivity) zero_le_one
    · exact min_le_right _ _
  have hrange0 : (0 : ℤ) ≤ (if (hd :: tl).isEmpty then 0
      else listMaxD (hd :: tl) 0 - listMinD (hd :: tl) 0) := by
    split
    · exact le_refl 0
    · have hmem : hd ∈ hd :: tl := List.mem_cons_self hd tl
      have := listMinD_le_mem (hd :: tl) 0 hd hmem
      have := mem_le_listMaxD (hd :: tl) 0 hd hmem
      omega
  have hrange : (0 : ℚ) ≤ min (((if (hd :: tl).isEmpty then 0
      else listMaxD (hd :: tl) 0 - listMinD (hd :: tl) 0 : ℤ) : ℚ) / 24) 1 ∧
      min (((if (hd :: tl).isEmpty then 0
      else listMaxD (hd :: tl) 0 - listMinD (hd :: tl) 0 : ℤ) : ℚ) / 24) 1 ≤ 1 := by
    constructor
    · refine le_min (div_nonneg ?_ (by norm_num)) zero_le_one
      exact_mod_cast hrange0
    · exact min_le_right _ _
  have huniq : (0 : ℚ) ≤ min (((hd :: tl).toFinset.card : ℚ) / 12) 1 ∧
      min (((hd :: tl).toFinset.card : ℚ) / 12) 1 ≤ 1 := by
    constructor
    · exact le_min (by positivity) zero_le_one
    · exact min_le_right _ _
  refine ⟨⟨?_, ?_⟩, rfl, ?_, hlen, hint, hrange, huniq, rfl⟩
  · nlinarith [hlen.1, hint.1, hrange.1, huniq.1]
  · nlinarith [hlen.2, hint.2, hrange.2, huniq.2, hlen.1, hint.1, hrange.1, huniq.1]
  · intro lab hlab
    rw [Option.some_inj] at hlab
    subst hlab
    exact difficulty_level_thresholds _

/-- C8 (witness): the amended theorem at the concrete melody `[60, 62]`. -/
theorem difficulty_result_fields_witness :
    (0 ≤ (get_difficulty_estimate [60, 62]).difficulty_score ∧
        (get_difficulty_estimate [60, 62]).difficulty_score ≤ 1) ∧
      (get_difficulty_estimate [60, 62]).analysis.isSome = true := by
  have h := difficulty_result_fields [60, 62] (by decide)
  exact ⟨h.1, h.2.2.2.2.2.2.2⟩

/-! ## Lemmas about `cosine_similarity` -/

theorem listMaxD_nonneg (s : List ℤ) (h : ∀ p ∈ s, 0 ≤ p) : 0 ≤ listMaxD s 0 := by
  cases s with
  | nil => exact le_refl 0
  | cons a t =>
    exact le_trans (h a (List.mem_cons_self a t)) (mem_le_listMaxD (a :: t) 0 a (List.mem_cons_self a t))

theorem cosMaxNote_pos (s1 s2 : List ℤ) (h1 : ∀ p ∈ s1, 0 ≤ p) :
    0 < cosMaxNote s1 s2 := by
  have h := le_trans (listMaxD_nonneg s1 h1) (le_max_left (listMaxD s1 0) (listMaxD s2 0))
  rw [cosMaxNote]
  linarith

theorem lt_cosMaxNote_left (s1 s2 : List ℤ) (p : ℤ) (hp : p ∈ s1) : p < cosMaxNote s1 s2 := by
  have h := mem_le_listMaxD s1 0 p hp
  have h2 := le_max_left (listMaxD s1 0) (listMaxD s2 0)
  rw [cosMaxNote]; omega

theorem lt_cosMaxNote_right (s1 s2 : List ℤ) (p : ℤ) (hp : p ∈ s2) : p < cosMaxNote s1 s2 := by
  have h := mem_le_listMaxD s2 0 p hp
  have h2 := le_max_right (listMaxD s1 0) (listMaxD s2 0)
  rw [cosMaxNote]; omega

/-- On a sequence of in-range non-negative pitches the numpy accesses all
succeed and the effective indices are just the pitches. -/
theorem histIndices_nonneg_eq (maxNote : ℤ) (s : List ℤ) (h0 : ∀ p ∈ s, 0 ≤ p)
    (hlt : ∀ p ∈ s, p < maxNote) : histIndices maxNote s = some (s.map Int.toNat) := by
  induction s with
  | nil => rfl
  | cons a t ih =>
    have ha : effIndex maxNote a = some a.toNat := by
      rw [effIndex, if_pos ⟨h0 a (List.mem_cons_self a t), hlt a (List.mem_cons_self a t)⟩]
    rw [histIndices] at ih ⊢
    rw [List.mapM_cons, ha,
      ih (fun p hp => h0 p (List.mem_cons_of_mem a hp)) (fun p hp => hlt p (List.mem_cons_of_mem a hp))]
    rfl

theorem histDot_nonneg (a b : List ℕ) (N : ℕ) : 0 ≤ histDot a b N := by
  refine Finset.sum_nonneg fun v _ => ?_
  positivity

theorem histNormSq_nonneg (a : List ℕ) (N : ℕ) : 0 ≤ histNormSq a N := by
  refine Finset.sum_nonneg fun v _ => ?_
  positivity

theorem histNormSq_nil (N : ℕ) : histNormSq ([] : List ℕ) N = 0 := by
  rw [histNormSq]
  refine Finset.sum_eq_zero fun v _ => ?_
  simp [List.count_nil]

/-- A non-empty histogram whose entries all lie below `N` has a positive
squared norm. -/
theorem histNormSq_pos (a : List ℕ) (N : ℕ) (hne : a ≠ []) (hlt : ∀ v ∈ a, v < N) :
    0 < histNormSq a N := by
  obtain ⟨h, t, rfl⟩ : ∃ h t, a = h :: t := by
    cases a with
    | nil => exact absurd rfl hne
    | cons h t => exact ⟨h, t, rfl⟩
  have hmem : h ∈ Finset.range N := Finset.mem_range.mpr (hlt h (List.mem_cons_self h t))
  have hterm : (1 : ℚ) ≤ ((h :: t).count h : ℚ) ^ 2 := by
    have : 1 ≤ (h :: t).count h := List.count_pos_iff.mpr (List.mem_cons_self h t)
    have h1 : (1 : ℚ) ≤ ((h :: t).count h : ℚ) := by exact_mod_cast this
    nlinarith
  calc (0 : ℚ) < 1 := one_pos
    _ ≤ ((h :: t).count h : ℚ) ^ 2 := hterm
    _ ≤ histNormSq (h :: t) N := by
        refine Finset.single_le_sum (f := fun v => ((h :: t).count v : ℚ) ^ 2) ?_ hmem
        intro v _
        positivity

/-- Cauchy-Schwarz for the histogram vectors, in the square-root form used
to bound the cosine similarity. -/
theorem histDot_le_sqrt_mul_sqrt (a b : List ℕ) (N : ℕ) :
    ((histDot a b N : ℚ) : ℝ) ≤
      Real.sqrt ((histNormSq a N : ℚ) : ℝ) * Real.sqrt ((histNormSq b N : ℚ) : ℝ) := by
  have hcs := Real.sum_mul_le_sqrt_mul_sqrt (Finset.range N)
    (fun v => ((a.count v : ℚ) : ℝ)) (fun v => ((b.count v : ℚ) : ℝ))
  have hdot : ((histDot a b N : ℚ) : ℝ) =
      ∑ v ∈ Finset.range N, ((a.count v : ℚ) : ℝ) * ((b.count v : ℚ) : ℝ) := by
    rw [histDot]
    push_cast
    rfl
  have hn1 : ((histNormSq a N : ℚ) : ℝ) = ∑ v ∈ Finset.range N, ((a.count v : ℚ) : ℝ) ^ 2 := by
    rw [histNormSq]
    push_cast
    rfl
  have hn2 : ((histNormSq b N : ℚ) : ℝ) = ∑ v ∈ Finset.range N, ((b.count v : ℚ) : ℝ) ^ 2 := by
    rw [histNormSq]
    push_cast
    rfl
  rw [hdot, hn1, hn2]
  exact hcs

/-- Elements of the effective-index list of a non-negative in-range pitch
sequence all lie below `maxNote.toNat`. -/
theorem map_toNat_lt (s : List ℤ) (maxNote : ℤ) (h0 : ∀ p ∈ s, 0 ≤ p)
    (hlt : ∀ p ∈ s, p < maxNote) : ∀ v ∈ s.map Int.toNat, v < maxNote.toNat := by
  intro v hv
  obtain ⟨p, hp, rfl⟩ := List.mem_map.mp hv
  have := h0 p hp
  have := hlt p hp
  omega

/-- The master lemma for `cosine_similarity` on non-negative pitch
sequences: it succeeds, its value is in `[0,1]`, empty inputs give 0, and
non-empty inputs give the histogram cosine raised to the 1.5 power with a
non-zero denominator. -/
theorem cosine_similarity_spec (s1 s2 : List ℤ) (h1 : ∀ p ∈ s1, 0 ≤ p)
    (h2 : ∀ p ∈ s2, 0 ≤ p) :
    ∃ v, cosine_similarity s1 s2 = Except.ok v ∧ 0 ≤ v ∧ v ≤ 1 ∧
      ((s1 = [] ∨ s2 = []) → v = 0) ∧
      (s1 ≠ [] → s2 ≠ [] →
        Real.sqrt ((histNormSq (s1.map Int.toNat) (cosMaxNote s1 s2).toNat : ℚ) : ℝ) *
            Real.sqrt ((histNormSq (s2.map Int.toNat) (cosMaxNote s1 s2).toNat : ℚ) : ℝ) ≠ 0 ∧
        v = (((histDot (s1.map Int.toNat) (s2.map Int.toNat) (cosMaxNote s1 s2).toNat : ℚ) : ℝ) /
            (Real.sqrt ((histNormSq (s1.map Int.toNat) (cosMaxNote s1 s2).toNat : ℚ) : ℝ) *
              Real.sqrt ((histNormSq (s2.map Int.toNat) (cosMaxNote s1 s2).toNat : ℚ) : ℝ))) ^
          (1.5 : ℝ)) := by
  have hpos := cosMaxNote_pos s1 s2 h1
  have hmax1 : ∀ p ∈ s1, p < cosMaxNote s1 s2 := fun p hp => lt_cosMaxNote_left s1 s2 p hp
  have hmax2 : ∀ p ∈ s2, p < cosMaxNote s1 s2 := fun p hp => lt_cosMaxNote_right s1 s2 p hp
  rw [cosine_similarity]
  rw [if_neg (not_lt.mpr (le_of_lt hpos))]
  rw [histIndices_nonneg_eq _ _ h1 hmax1, histIndices_nonneg_eq _ _ h2 hmax2]
  dsimp only
  set N := (cosMaxNote s1 s2).toNat with hN
  set a := s1.map Int.toNat with haDef
  set b := s2.map Int.toNat with hbDef
  set n1 : ℝ := Real.sqrt ((histNormSq a N : ℚ) : ℝ) with hn1
  set n2 : ℝ := Real.sqrt ((histNormSq b N : ℚ) : ℝ) with hn2
  by_cases hguard : n1 = 0 ∨ n2 = 0
  · rw [if_pos hguard]
    refine ⟨0, rfl, le_refl 0, zero_le_one, fun _ => rfl, fun hs1 hs2 => ?_⟩
    exfalso
    have ha_ne : a ≠ [] := by
      rw [haDef]
      intro hmap
      exact hs1 (List.map_eq_nil_iff.mp hmap)
    have hb_ne : b ≠ [] := by
      rw [hbDef]
      intro hmap
      exact hs2 (List.map_eq_nil_iff.mp hmap)
    have hp1 : 0 < histNormSq a N := histNormSq_pos a N ha_ne (map_toNat_lt s1 _ h1 hmax1)
    have hp2 : 0 < histNormSq b N := histNormSq_pos b N hb_ne (map_toNat_lt s2 _ h2 hmax2)
    rcases hguard with hg | hg
    · rw [hn1, Real.sqrt_eq_zero (by exact_mod_cast le_of_lt hp1)] at hg
      exact absurd hg (by exact_mod_cast ne_of_gt hp1)
    · rw [hn2, Real.sqrt_eq_zero (by exact_mod_cast le_of_lt hp2)] at hg
      exact absurd hg (by exact_mod_cast ne_of_gt hp2)
  · rw [if_neg hguard]
    push_neg at hguard
    have hn1pos : 0 < n1 := lt_of_le_of_ne (Real.sqrt_nonneg _) (Ne.symm hguard.1)
    have hn2pos : 0 < n2 := lt_of_le_of_ne (Real.sqrt_nonneg _) (Ne.symm hguard.2)
    have hbase0 : (0 : ℝ) ≤ ((histDot a b N : ℚ) : ℝ) / (n1 * n2) := by
      apply div_nonneg
      · exact_mod_cast histDot_nonneg a b N
      · positivity
    have hbase1 : ((histDot a b N : ℚ) : ℝ) / (n1 * n2) ≤ 1 := by
      rw [div_le_one (by positivity)]
      exact histDot_le_sqrt_mul_sqrt a b N
    refine ⟨_, rfl, Real.rpow_nonneg hbase0 _, Real.rpow_le_one hbase0 hbase1 (by norm_num),
      fun hemp => ?_, fun _ _ => ⟨by positivity, rfl⟩⟩
    -- an empty input forces a zero norm, contradicting the guard
    exfalso
    rcases hemp with rfl | rfl
    · have : histNormSq a N = 0 := by rw [haDef, List.map_nil, histNormSq_nil]
      apply hguard.1
      rw [hn1, this]
      simp
    · have : histNormSq b N = 0 := by rw [hbDef, List.map_nil, histNormSq_nil]
      apply hguard.2
      rw [hn2, this]
      simp

/-- C9 (counterexample): `cosine_similarity([], [-3])` raises an
`IndexError` (numpy rejects index `-3` into the 1-element histogram)
instead of returning 0.0 for the empty first sequence, so the claim as
stated fails on out-of-range input. -/
theorem cosine_empty_negative_raises :
    cosine_similarity [] [-3] = Except.error "IndexError: index out of bounds" := rfl

/-- C9 (amended): on sequences of non-negative pitches,
`cosine_similarity` never raises: it returns 0.0 whenever either input is
empty (whose histogram norm is the only zero norm that can then occur),
and otherwise divides by a provably non-zero product of norms and returns
the histogram cosine raised to the 1.5 power. -/
theorem cosine_guards (s1 s2 : List ℤ) (h1 : ∀ p ∈ s1, 0 ≤ p) (h2 : ∀ p ∈ s2, 0 ≤ p) :
    ∃ v, cosine_similarity s1 s2 = Except.ok v ∧
      ((s1 = [] ∨ s2 = []) → v = 0) ∧
      (s1 ≠ [] → s2 ≠ [] →
        Real.sqrt ((histNormSq (s1.map Int.toNat) (cosMaxNote s1 s2).toNat : ℚ) : ℝ) *
            Real.sqrt ((histNormSq (s2.map Int.toNat) (cosMaxNote s1 s2).toNat : ℚ) : ℝ) ≠ 0 ∧
        v = (((histDot (s1.map Int.toNat) (s2.map Int.toNat) (cosMaxNote s1 s2).toNat : ℚ) : ℝ) /
            (Real.sqrt ((histNormSq (s1.map Int.toNat) (cosMaxNote s1 s2).toNat : ℚ) : ℝ) *
              Real.sqrt ((histNormSq (s2.map Int.toNat) (cosMaxNote s1 s2).toNat : ℚ) : ℝ))) ^
          (1.5 : ℝ)) := by
  obtain ⟨v, hok, _, _, hemp, hval⟩ := cosine_similarity_spec s1 s2 h1 h2
  exact ⟨v, hok, hemp, hval⟩

/-- C9 (witness): the amended guard theorem applied at `([60], [])`. -/
theorem cosine_guards_witness :
    ∃ v, cosine_similarity [60] [] = Except.ok v ∧ v = 0 := by
  obtain ⟨v, hok, hemp, _⟩ :=
    cosine_guards [60] [] (by decide) (by intro p hp; cases hp)
  exact ⟨v, hok, hemp (Or.inr rfl)⟩

/-- C1 (counterexample): `compare_melodies([-5], [-5])` raises
(`np.zeros(-4)` inside `cosine_similarity` rejects the negative dimension)
rather than returning a degenerate result, so out-of-range negative
pitches are not handled crash-free. -/
theorem compare_melodies_negative_raises :
    compare_melodies [-5] [-5] none none none none =
      Except.error "ValueError: negative dimensions are not allowed" := rfl

/-- C1 (amended): for melody pairs whose pitches are all non-negative (in
particular the whole nominal MIDI range 0-127), and timing arguments that
obey the documented caller invariant (each supplied timing/duration list
has the same length as its paired note sequence — outside that invariant
the source raises `IndexError` at `timings1[i-1]`, line 96, which this
embedding does not model), `compare_melodies` returns a well-typed result
and never raises; empty inputs yield the degenerate zero-valued result.
(Sufficiently negative pitches can instead raise inside
`cosine_similarity`.) -/
theorem compare_melodies_no_crash (m1 m2 : List ℤ) (t1 t2 d1 d2 : Option (List ℚ))
    (h1 : ∀ p ∈ m1, 0 ≤ p) (h2 : ∀ p ∈ m2, 0 ≤ p)
    (_ht1 : ∀ l, t1 = some l → l.length = m1.length)
    (_ht2 : ∀ l, t2 = some l → l.length = m2.length)
    (_hd1 : ∀ l, d1 = some l → l.length = m1.length)
    (_hd2 : ∀ l, d2 = some l → l.length = m2.length) :
    ∃ r, compare_melodies m1 m2 t1 t2 d1 d2 = Except.ok r := by
  rw [compare_melodies]
  by_cases he : m1.isEmpty || m2.isEmpty
  · rw [if_pos he]
    exact ⟨zeroCompareResult, rfl⟩
  · rw [if_neg he]
    obtain ⟨v, hok, _⟩ := cosine_similarity_spec m1 m2 h1 h2
    rw [hok]
    exact ⟨_, rfl⟩

/-- C1 (witness): the amended no-crash theorem at `([60, 62], [60, 64])`
with full length-matched timing data supplied. -/
theorem compare_melodies_no_crash_witness :
    ∃ r, compare_melodies [60, 62] [60, 64]
      (some [0, 500]) (some [10, 510]) (some [400, 400]) (some [420, 380]) =
      Except.ok r :=
  compare_melodies_no_crash [60, 62] [60, 64]
    (some [0, 500]) (some [10, 510]) (some [400, 400]) (some [420, 380])
    (by decide) (by decide)
    (fun l hl => by cases hl; rfl) (fun l hl => by cases hl; rfl)
    (fun l hl => by cases hl; rfl) (fun l hl => by cases hl; rfl)

/-! ## Lemmas about the DTW matrices -/

theorem dtwDP_zero_zero (step : ℕ → ℕ → ℚ) : dtwDP step 0 0 = 0 := rfl

theorem dtwDP_zero_succ (step : ℕ → ℕ → ℚ) (j : ℕ) : dtwDP step 0 (j + 1) = ⊤ := rfl

theorem dtwDP_succ_zero (step : ℕ → ℕ → ℚ) (i : ℕ) : dtwDP step (i + 1) 0 = ⊤ := rfl

theorem dtwDP_succ_succ (step : ℕ → ℕ → ℚ) (i j : ℕ) :
    dtwDP step (i + 1) (j + 1) =
      (step i j : WithTop ℚ) +
        min (dtwDP step i (j + 1)) (min (dtwDP step (i + 1) j) (dtwDP step i j)) := rfl

theorem dtwDP_nonneg (step : ℕ → ℕ → ℚ) (hstep : ∀ i j, 0 ≤ step i j) :
    ∀ i j, (0 : WithTop ℚ) ≤ dtwDP step i j := by
  intro i
  induction i with
  | zero =>
    intro j
    cases j with
    | zero => exact le_refl 0
    | succ j => exact le_top
  | succ i ih =>
    intro j
    induction j with
    | zero => exact le_top
    | succ j ihj =>
      rw [dtwDP_succ_succ]
      refine add_nonneg ?_ (le_min (ih (j + 1)) (le_min ihj (ih j)))
      exact_mod_cast hstep i j

theorem dtwDP_interior_ne_top (step : ℕ → ℕ → ℚ) :
    ∀ i j, dtwDP step (i + 1) (j + 1) ≠ ⊤ := by
  have hcell : ∀ i j c, c ≠ ⊤ →
      (c = dtwDP step i (j + 1) ∨ c = dtwDP step (i + 1) j ∨ c = dtwDP step i j) →
      dtwDP step (i + 1) (j + 1) ≠ ⊤ := by
    intro i j c hc hmem
    rw [dtwDP_succ_succ]
    refine WithTop.add_ne_top.mpr ⟨WithTop.coe_ne_top, ?_⟩
    have hle : min (dtwDP step i (j + 1)) (min (dtwDP step (i + 1) j) (dtwDP step i j)) ≤ c := by
      rcases hmem with rfl | rfl | rfl
      · exact min_le_left _ _
      · exact le_trans (min_le_right _ _) (min_le_left _ _)
      · exact le_trans (min_le_right _ _) (min_le_right _ _)
    exact ne_top_of_le_ne_top hc hle
  intro i
  induction i with
  | zero =>
    intro j
    induction j with
    | zero => exact hcell 0 0 0 (by decide) (Or.inr (Or.inr rfl))
    | succ j ihj => exact hcell 0 (j + 1) _ ihj (Or.inr (Or.inl rfl))
  | succ i ih =>
    intro j
    induction j with
    | zero => exact hcell (i + 1) 0 _ (ih 0) (Or.inl rfl)
    | succ j ihj => exact hcell (i + 1) (j + 1) _ (ih (j + 1)) (Or.inl rfl)

/-- A matrix whose step cost vanishes on the diagonal (and is elsewhere
non-negative) has zero along its whole diagonal. -/
theorem dtwDP_diag_zero (step : ℕ → ℕ → ℚ) (hstep : ∀ i j, 0 ≤ step i j)
    (hdiag : ∀ i, step i i = 0) : ∀ k, dtwDP step k k = 0 := by
  intro k
  induction k with
  | zero => rfl
  | succ k ih =>
    rw [dtwDP_succ_succ, hdiag k]
    have hmin : min (dtwDP step k (k + 1)) (min (dtwDP step (k + 1) k) (dtwDP step k k)) = 0 := by
      refine le_antisymm ?_ ?_
      · rw [← ih]
        exact le_trans (min_le_right _ _) (min_le_right _ _)
      · exact le_min (dtwDP_nonneg step hstep _ _)
          (le_min (dtwDP_nonneg step hstep _ _) (dtwDP_nonneg step hstep _ _))
    rw [hmin, WithTop.coe_zero, add_zero]

theorem pitchStep_nonneg (s1 s2 : List ℤ) : ∀ i j, 0 ≤ pitchStep s1 s2 i j := by
  intro i j
  rw [pitchStep]
  exact le_min (by positivity) zero_le_one

theorem pitchStep_le_one (s1 s2 : List ℤ) (i j : ℕ) : pitchStep s1 s2 i j ≤ 1 :=
  min_le_right _ _

theorem pitchStep_self_diag (s : List ℤ) (i : ℕ) : pitchStep s s i i = 0 := by
  rw [pitchStep, sub_self, Int.natAbs_zero]
  norm_num

theorem timingStep_nonneg (t1 adj2 d1 d2 : Option (List ℚ)) (i j : ℕ) :
    0 ≤ timingStep t1 adj2 d1 d2 i j := by
  rw [timingStep]
  have h1 : (0 : ℚ) ≤ min ((|getQ t1 i - getQ adj2 j| / 600) * 1.2) 1 :=
    le_min (by positivity) zero_le_one
  have h2 : (0 : ℚ) ≤ min ((|getQ d1 i - getQ d2 j| / 350) * 1.2) 1 :=
    le_min (by positivity) zero_le_one
  nlinarith

theorem combinedStep_nonneg (s1 s2 : List ℤ) (t1 adj2 d1 d2 : Option (List ℚ))
    (pw tw : ℚ) (hpw : 0 ≤ pw) (htw : 0 ≤ tw) :
    ∀ i j, 0 ≤ combinedStep s1 s2 t1 adj2 d1 d2 pw tw i j := by
  intro i j
  rw [combinedStep]
  have hp := pitchStep_nonneg s1 s2 i j
  have ht : (0 : ℚ) ≤ (if truthy t1 && truthy adj2 && truthy d1 && truthy d2 then
      timingStep t1 adj2 d1 d2 i j else 0) := by
    split
    · exact timingStep_nonneg t1 adj2 d1 d2 i j
    · exact le_refl 0
  have : (0 : ℚ) ≤ (if truthy t1 then
      tw * (if truthy t1 && truthy adj2 && truthy d1 && truthy d2 then
        timingStep t1 adj2 d1 d2 i j else 0) else 0) := by
    split
    · exact mul_nonneg htw ht
    · exact le_refl 0
  nlinarith

theorem combinedStep_self_diag (s : List ℤ) (d1 d2 : Option (List ℚ)) (pw tw : ℚ) (i : ℕ) :
    combinedStep s s none none d1 d2 pw tw i i = 0 := by
  rw [combinedStep, pitchStep_self_diag]
  have ht : truthy none = false := rfl
  rw [ht]
  norm_num

theorem capDiv_top (adj : ℚ) : capDiv ⊤ adj = 1 := rfl

theorem capDiv_coe (q adj : ℚ) : capDiv (q : WithTop ℚ) adj = min (q / adj) 1 := rfl

theorem capDiv_nonneg (d : WithTop ℚ) (hd : (0 : WithTop ℚ) ≤ d) (adj : ℚ) (hadj : 0 ≤ adj) :
    0 ≤ capDiv d adj := by
  cases d with
  | top => rw [capDiv_top]; exact zero_le_one
  | coe q =>
    have hq : (0 : ℚ) ≤ q := by exact_mod_cast hd
    rw [capDiv_coe]
    exact le_min (div_nonneg hq hadj) zero_le_one

theorem capDiv_le_one (d : WithTop ℚ) (adj : ℚ) : capDiv d adj ≤ 1 := by
  cases d with
  | top => rw [capDiv_top]
  | coe q => rw [capDiv_coe]; exact min_le_right _ _

theorem capDiv_coe_zero (adj : ℚ) : capDiv ((0 : ℚ) : WithTop ℚ) adj = 0 := by
  rw [capDiv_coe, zero_div]
  exact min_eq_left zero_le_one

/-! ## Bounds on the classical metrics -/

theorem levMat_eq_rowzero (s1 s2 : List ℤ) (j : ℕ) : levMat s1 s2 0 j = j := rfl

theorem levMat_succ_zero (s1 s2 : List ℤ) (i : ℕ) : levMat s1 s2 (i + 1) 0 = i + 1 := rfl

theorem levMat_succ_succ (s1 s2 : List ℤ) (i j : ℕ) :
    levMat s1 s2 (i + 1) (j + 1) =
      if s1.getD i 0 = s2.getD j 0 then levMat s1 s2 i j
      else
        min (levMat s1 s2 i (j + 1) + 1)
          (min (levMat s1 s2 (i + 1) j + 1) (levMat s1 s2 i j + 1)) := rfl

theorem levMat_le_max (s1 s2 : List ℤ) : ∀ i j, levMat s1 s2 i j ≤ max i j := by
  intro i
  induction i with
  | zero => intro j; rw [levMat_eq_rowzero]; exact le_max_right 0 j
  | succ i ih =>
    intro j
    induction j with
    | zero => rw [levMat_succ_zero]; exact le_max_left (i + 1) 0
    | succ j ihj =>
      rw [levMat_succ_succ]
      split
      · exact le_trans (ih j) (by omega)
      · have hmin : min (levMat s1 s2 i (j + 1) + 1)
            (min (levMat s1 s2 (i + 1) j + 1) (levMat s1 s2 i j + 1)) ≤
            levMat s1 s2 i j + 1 :=
          le_trans (min_le_right _ _) (min_le_right _ _)
        have := ih j
        omega

theorem levMat_self_diag (s : List ℤ) : ∀ k, levMat s s k k = 0 := by
  intro k
  induction k with
  | zero => rfl
  | succ k ih =>
    rw [levMat_succ_succ, if_pos rfl]
    exact ih

theorem lcsMat_rowzero (s1 s2 : List ℤ) (j : ℕ) : lcsMat s1 s2 0 j = 0 := rfl

theorem lcsMat_succ_zero (s1 s2 : List ℤ) (i : ℕ) : lcsMat s1 s2 (i + 1) 0 = 0 := rfl

theorem lcsMat_succ_succ (s1 s2 : List ℤ) (i j : ℕ) :
    lcsMat s1 s2 (i + 1) (j + 1) =
      if s1.getD i 0 = s2.getD j 0 then lcsMat s1 s2 i j + 1
      else max (lcsMat s1 s2 i (j + 1)) (lcsMat s1 s2 (i + 1) j) := rfl

theorem lcsMat_le_min (s1 s2 : List ℤ) : ∀ i j, lcsMat s1 s2 i j ≤ min i j := by
  intro i
  induction i with
  | zero => intro j; rw [lcsMat_rowzero]; omega
  | succ i ih =>
    intro j
    induction j with
    | zero => rw [lcsMat_succ_zero]; omega
    | succ j ihj =>
      rw [lcsMat_succ_succ]
      split
      · have := ih j; omega
      · have h1 := ih (j + 1)
        have h2 := ihj
        omega

theorem lcsMat_self_diag (s : List ℤ) : ∀ k, lcsMat s s k k = k := by
  intro k
  induction k with
  | zero => rfl
  | succ k ih =>
    rw [lcsMat_succ_succ, if_pos rfl, ih]

/-! ## Aggregation helpers -/

theorem rpow_mem_unit (x : ℝ) (hx : 0 ≤ x) (hx1 : x ≤ 1) (p : ℝ) (hp : 0 ≤ p) :
    0 ≤ x ^ p ∧ x ^ p ≤ 1 :=
  ⟨Real.rpow_nonneg hx p, Real.rpow_le_one hx hx1 hp⟩

theorem list_sum_le_length (l : List ℝ) (h : ∀ x ∈ l, x ≤ 1) : l.sum ≤ l.length := by
  induction l with
  | nil => simp
  | cons a t ih =>
    rw [List.sum_cons, List.length_cons]
    have ha := h a (List.mem_cons_self a t)
    have ht := ih (fun x hx => h x (List.mem_cons_of_mem a hx))
    push_cast
    linarith

theorem list_mean_mem_unit (l : List ℝ) (h : ∀ x ∈ l, 0 ≤ x ∧ x ≤ 1) :
    0 ≤ l.sum / l.length ∧ l.sum / l.length ≤ 1 := by
  cases l with
  | nil => norm_num
  | cons a t =>
    have hlen : (0 : ℝ) < ((a :: t).length : ℝ) := by
      rw [List.length_cons]
      push_cast
      positivity
    constructor
    · exact div_nonneg (List.sum_nonneg fun x hx => (h x hx).1) (le_of_lt hlen)
    · rw [div_le_one hlen]
      exact list_sum_le_length _ fun x hx => (h x hx).2

/-- The per-pair errors stored in the note details are absolute values,
hence non-negative. -/
theorem noteDetails_errors_nonneg (s1 s2 : List ℤ) (t1 t2 d1 d2 : Option (List ℚ))
    (path : List (ℕ × ℕ)) :
    ∀ d ∈ noteDetails s1 s2 t1 t2 d1 d2 path,
      (∀ e, d.onset_error = some e → 0 ≤ e) ∧ (∀ e, d.duration_error = some e → 0 ≤ e) := by
  intro d hd
  rw [noteDetails] at hd
  obtain ⟨p, _, rfl⟩ := List.mem_map.mp hd
  dsimp only
  split
  · constructor
    · intro e he
      rw [Option.some_inj] at he
      rw [← he]
      exact abs_nonneg _
    · intro e he
      rw [Option.some_inj] at he
      rw [← he]
      exact abs_nonneg _
  · constructor
    · intro e he
      cases he
    · intro e he
      cases he

theorem norm_error_term_mem_unit (e cap : ℚ) (he : 0 ≤ e) (hcap : 0 < cap) :
    0 ≤ (((1 - min (e / cap) 1 : ℚ)) : ℝ) ^ (1.2 : ℝ) ∧
      (((1 - min (e / cap) 1 : ℚ)) : ℝ) ^ (1.2 : ℝ) ≤ 1 := by
  have hmin0 : (0 : ℚ) ≤ min (e / cap) 1 := le_min (div_nonneg he (le_of_lt hcap)) zero_le_one
  have hmin1 : min (e / cap) 1 ≤ 1 := min_le_right _ _
  have h0 : (0 : ℚ) ≤ 1 - min (e / cap) 1 := by linarith
  have h1 : (1 - min (e / cap) 1 : ℚ) ≤ 1 := by linarith
  refine rpow_mem_unit _ ?_ ?_ _ (by norm_num)
  · exact_mod_cast h0
  · exact_mod_cast h1

/-- The aggregate timing accuracy lies in `[0,1]` whenever every stored
error is non-negative (which `noteDetails_errors_nonneg` guarantees). -/
theorem dtwTimingAccuracy_mem_unit (details : List NoteDetail) (t1 t2 d1 d2 : Option (List ℚ))
    (herr : ∀ d ∈ details,
      (∀ e, d.onset_error = some e → 0 ≤ e) ∧ (∀ e, d.duration_error = some e → 0 ≤ e)) :
    0 ≤ dtwTimingAccuracy details t1 t2 d1 d2 ∧ dtwTimingAccuracy details t1 t2 d1 d2 ≤ 1 := by
  rw [dtwTimingAccuracy]
  split
  · have honset : ∀ x ∈ (details.filterMap (fun d => d.onset_error)).map
        (fun e => (((1 - min (e / 600) 1 : ℚ)) : ℝ) ^ (1.2 : ℝ)), 0 ≤ x ∧ x ≤ 1 := by
      intro x hx
      obtain ⟨e, he, rfl⟩ := List.mem_map.mp hx
      obtain ⟨d, hd, hde⟩ := List.mem_filterMap.mp he
      exact norm_error_term_mem_unit e 600 ((herr d hd).1 e hde) (by norm_num)
    have hdur : ∀ x ∈ (details.filterMap (fun d => d.duration_error)).map
        (fun e => (((1 - min (e / 350) 1 : ℚ)) : ℝ) ^ (1.2 : ℝ)), 0 ≤ x ∧ x ≤ 1 := by
      intro x hx
      obtain ⟨e, he, rfl⟩ := List.mem_map.mp hx
      obtain ⟨d, hd, hde⟩ := List.mem_filterMap.mp he
      exact norm_error_term_mem_unit e 350 ((herr d hd).2 e hde) (by norm_num)
    have hoa : 0 ≤ (if ((details.filterMap (fun d => d.onset_error)).map
          (fun e => (((1 - min (e / 600) 1 : ℚ)) : ℝ) ^ (1.2 : ℝ))).length ≠ 0 then
          ((details.filterMap (fun d => d.onset_error)).map
            (fun e => (((1 - min (e / 600) 1 : ℚ)) : ℝ) ^ (1.2 : ℝ))).sum /
            (((details.filterMap (fun d => d.onset_error)).map
              (fun e => (((1 - min (e / 600) 1 : ℚ)) : ℝ) ^ (1.2 : ℝ))).length : ℝ)
        else 0) ∧ (if ((details.filterMap (fun d => d.onset_error)).map
          (fun e => (((1 - min (e / 600) 1 : ℚ)) : ℝ) ^ (1.2 : ℝ))).length ≠ 0 then
          ((details.filterMap (fun d => d.onset_error)).map
            (fun e => (((1 - min (e / 600) 1 : ℚ)) : ℝ) ^ (1.2 : ℝ))).sum /
            (((details.filterMap (fun d => d.onset_error)).map
              (fun e => (((1 - min (e / 600) 1 : ℚ)) : ℝ) ^ (1.2 : ℝ))).length : ℝ)
        else 0) ≤ 1 := by
      split
      · exact list_mean_mem_unit _ honset
      · norm_num
    have hda : 0 ≤ (if ((details.filterMap (fun d => d.duration_error)).map
          (fun e => (((1 - min (e / 350) 1 : ℚ)) : ℝ) ^ (1.2 : ℝ))).length ≠ 0 then
          ((details.filterMap (fun d => d.duration_error)).map
            (fun e => (((1 - min (e / 350) 1 : ℚ)) : ℝ) ^ (1.2 : ℝ))).sum /
            (((details.filterMap (fun d => d.duration_error)).map
              (fun e => (((1 - min (e / 350) 1 : ℚ)) : ℝ) ^ (1.2 : ℝ))).length : ℝ)
        else 0) ∧ (if ((details.filterMap (fun d => d.duration_error)).map
          (fun e => (((1 - min (e / 350) 1 : ℚ)) : ℝ) ^ (1.2 : ℝ))).length ≠ 0 then
          ((details.filterMap (fun d => d.duration_error)).map
            (fun e => (((1 - min (e / 350) 1 : ℚ)) : ℝ) ^ (1.2 : ℝ))).sum /
            (((details.filterMap (fun d => d.duration_error)).map
              (fun e => (((1 - min (e / 350) 1 : ℚ)) : ℝ) ^ (1.2 : ℝ))).length : ℝ)
        else 0) ≤ 1 := by
      split
      · exact list_mean_mem_unit _ hdur
      · norm_num
    constructor
    · nlinarith [hoa.1, hda.1]
    · nlinarith [hoa.1, hoa.2, hda.1, hda.2]
  · norm_num

/-! ## Bounds on the values returned by `dtw_distance` -/

theorem dtw_distance_details_eq (s1 s2 : List ℤ) (t1 t2 d1 d2 : Option (List ℚ)) (pw tw : ℚ) :
    (dtw_distance s1 s2 t1 t2 d1 d2 pw tw).2.2.2 =
      noteDetails s1 s2 t1 t2 d1 d2
        (dtw_path (dtw_matrix s1 s2 t1 t2 d1 d2 pw tw) s1.length s2.length) := rfl

theorem adjusted_max_dist_nonneg (n m : ℕ) : 0 ≤ adjusted_max_dist n m := by
  rw [adjusted_max_dist]
  positivity

theorem dtw_norm_term_mem_unit (d : WithTop ℚ) (hd : (0 : WithTop ℚ) ≤ d) (adj : ℚ)
    (hadj : 0 ≤ adj) :
    0 ≤ (((1 - capDiv d adj : ℚ)) : ℝ) ^ (1.5 : ℝ) ∧
      (((1 - capDiv d adj : ℚ)) : ℝ) ^ (1.5 : ℝ) ≤ 1 := by
  have h0 := capDiv_nonneg d hd adj hadj
  have h1 := capDiv_le_one d adj
  have hq0 : (0 : ℚ) ≤ 1 - capDiv d adj := by linarith
  have hq1 : (1 - capDiv d adj : ℚ) ≤ 1 := by linarith
  refine rpow_mem_unit _ ?_ ?_ _ (by norm_num)
  · exact_mod_cast hq0
  · exact_mod_cast hq1

theorem dtw_distance_combined_mem_unit (s1 s2 : List ℤ) (t1 t2 d1 d2 : Option (List ℚ))
    (pw tw : ℚ) (hpw : 0 ≤ pw) (htw : 0 ≤ tw) :
    0 ≤ (dtw_distance s1 s2 t1 t2 d1 d2 pw tw).1 ∧
      (dtw_distance s1 s2 t1 t2 d1 d2 pw tw).1 ≤ 1 := by
  rw [dtw_distance]
  dsimp only
  refine dtw_norm_term_mem_unit _ ?_ _ (adjusted_max_dist_nonneg _ _)
  rw [dtw_matrix]
  exact dtwDP_nonneg _
    (combinedStep_nonneg s1 s2 t1 (adjustTimings t1 t2) d1 d2 pw tw hpw htw) _ _

theorem dtw_distance_pitch_mem_unit (s1 s2 : List ℤ) (t1 t2 d1 d2 : Option (List ℚ))
    (pw tw : ℚ) :
    0 ≤ (dtw_distance s1 s2 t1 t2 d1 d2 pw tw).2.1 ∧
      (dtw_distance s1 s2 t1 t2 d1 d2 pw tw).2.1 ≤ 1 := by
  rw [dtw_distance]
  dsimp only
  refine dtw_norm_term_mem_unit _ ?_ _ (adjusted_max_dist_nonneg _ _)
  rw [pitch_matrix]
  exact dtwDP_nonneg _ (pitchStep_nonneg s1 s2) _ _

theorem dtw_distance_timing_mem_unit (s1 s2 : List ℤ) (t1 t2 d1 d2 : Option (List ℚ))
    (pw tw : ℚ) :
    0 ≤ (dtw_distance s1 s2 t1 t2 d1 d2 pw tw).2.2.1 ∧
      (dtw_distance s1 s2 t1 t2 d1 d2 pw tw).2.2.1 ≤ 1 := by
  rw [dtw_distance]
  dsimp only
  exact dtwTimingAccuracy_mem_unit _ t1 t2 d1 d2
    (noteDetails_errors_nonneg s1 s2 t1 t2 d1 d2 _)

/-! ## Bounds on the fields of `compareOkBody` -/

theorem normalize_score_mem_unit (score max_score : ℚ) (h0 : 0 ≤ score)
    (hle : score ≤ max_score) :
    0 ≤ normalize_score score max_score ∧ normalize_score score max_score ≤ 1 := by
  rw [normalize_score]
  have hq : (0 : ℚ) ≤ (if max_score > 0 then 1 - score / max_score else 0) ∧
      (if max_score > 0 then 1 - score / max_score else 0 : ℚ) ≤ 1 := by
    split
    · rename_i hpos
      constructor
      · have := (div_le_one hpos).mpr hle
        linarith
      · have := div_nonneg h0 (le_of_lt hpos)
        linarith
    · norm_num
  refine rpow_mem_unit _ ?_ ?_ _ (by norm_num)
  · exact_mod_cast hq.1
  · exact_mod_cast hq.2

theorem normalized_lcs_mem_unit (lcs maxlcs : ℕ) (hle : lcs ≤ maxlcs) :
    0 ≤ (((if 0 < maxlcs then (lcs : ℚ) / (maxlcs : ℚ) else 0 : ℚ)) : ℝ) ^ (1.5 : ℝ) ∧
      (((if 0 < maxlcs then (lcs : ℚ) / (maxlcs : ℚ) else 0 : ℚ)) : ℝ) ^ (1.5 : ℝ) ≤ 1 := by
  have hq : (0 : ℚ) ≤ (if 0 < maxlcs then (lcs : ℚ) / (maxlcs : ℚ) else 0) ∧
      (if 0 < maxlcs then (lcs : ℚ) / (maxlcs : ℚ) else 0 : ℚ) ≤ 1 := by
    split
    · rename_i hpos
      have hposq : (0 : ℚ) < (maxlcs : ℚ) := by exact_mod_cast hpos
      constructor
      · positivity
      · rw [div_le_one hposq]
        exact_mod_cast hle
    · norm_num
  refine rpow_mem_unit _ ?_ ?_ _ (by norm_num)
  · exact_mod_cast hq.1
  · exact_mod_cast hq.2

theorem pitch_accuracy_mem_unit (details : List NoteDetail) :
    0 ≤ (((if 0 < details.length then
        ((details.countP (fun d => d.is_correct_pitch) : ℚ)) / ((details.length : ℕ) : ℚ)
      else 0 : ℚ)) : ℝ) ^ (1.3 : ℝ) ∧
      (((if 0 < details.length then
        ((details.countP (fun d => d.is_correct_pitch) : ℚ)) / ((details.length : ℕ) : ℚ)
      else 0 : ℚ)) : ℝ) ^ (1.3 : ℝ) ≤ 1 := by
  have hq : (0 : ℚ) ≤ (if 0 < details.length then
        ((details.countP (fun d => d.is_correct_pitch) : ℚ)) / ((details.length : ℕ) : ℚ)
      else 0) ∧
      (if 0 < details.length then
        ((details.countP (fun d => d.is_correct_pitch) : ℚ)) / ((details.length : ℕ) : ℚ)
      else 0 : ℚ) ≤ 1 := by
    split
    · rename_i hpos
      have hposq : (0 : ℚ) < ((details.length : ℕ) : ℚ) := by exact_mod_cast hpos
      constructor
      · positivity
      · rw [div_le_one hposq]
        exact_mod_cast List.countP_le_length _
    · norm_num
  refine rpow_mem_unit _ ?_ ?_ _ (by norm_num)
  · exact_mod_cast hq.1
  · exact_mod_cast hq.2

/-- All score fields of the non-short-circuit comparison result lie in
`[0,1]`, provided the cosine score does. -/
theorem compareOkBody_bounds (m1 m2 : List ℤ) (t1 t2 d1 d2 : Option (List ℚ)) (v : ℝ)
    (hv0 : 0 ≤ v) (hv1 : v ≤ 1) :
    (0 ≤ (compareOkBody m1 m2 t1 t2 d1 d2 v).final_score ∧
        (compareOkBody m1 m2 t1 t2 d1 d2 v).final_score ≤ 1) ∧
      (0 ≤ (compareOkBody m1 m2 t1 t2 d1 d2 v).pitch_accuracy ∧
        (compareOkBody m1 m2 t1 t2 d1 d2 v).pitch_accuracy ≤ 1) ∧
      (0 ≤ (compareOkBody m1 m2 t1 t2 d1 d2 v).timing_accuracy ∧
        (compareOkBody m1 m2 t1 t2 d1 d2 v).timing_accuracy ≤ 1) ∧
      (∀ s, (compareOkBody m1 m2 t1 t2 d1 d2 v).individual_scores = some s →
        (0 ≤ s.dtw_combined ∧ s.dtw_combined ≤ 1) ∧
        (0 ≤ s.dtw_pitch ∧ s.dtw_pitch ≤ 1) ∧
        (0 ≤ s.dtw_timing ∧ s.dtw_timing ≤ 1) ∧
        (0 ≤ s.levenshtein ∧ s.levenshtein ≤ 1) ∧
        (0 ≤ s.lcs ∧ s.lcs ≤ 1) ∧
        (0 ≤ s.cosine ∧ s.cosine ≤ 1)) := by
  have hcomb := dtw_distance_combined_mem_unit m1 m2 t1 t2 d1 d2 0.6 0.4 (by norm_num) (by norm_num)
  have hpitch := dtw_distance_pitch_mem_unit m1 m2 t1 t2 d1 d2 0.6 0.4
  have htim := dtw_distance_timing_mem_unit m1 m2 t1 t2 d1 d2 0.6 0.4
  have hlev := normalize_score_mem_unit ((levenshtein_distance m1 m2 : ℕ) : ℚ)
    (((max m1.length m2.length : ℕ)) : ℚ) (by positivity)
    (by exact_mod_cast levMat_le_max m1 m2 m1.length m2.length)
  have hlcs := normalized_lcs_mem_unit (lcs_length m1 m2) (min m1.length m2.length)
    (lcsMat_le_min m1 m2 m1.length m2.length)
  have hpa := pitch_accuracy_mem_unit (dtw_distance m1 m2 t1 t2 d1 d2 0.6 0.4).2.2.2
  have hw1 : ((weights.dtw_pitch : ℚ) : ℝ) = 0.4 := by norm_num [weights]
  have hw2 : ((weights.dtw_timing : ℚ) : ℝ) = 0.3 := by norm_num [weights]
  have hw3 : ((weights.levenshtein : ℚ) : ℝ) = 0.15 := by norm_num [weights]
  have hw4 : ((weights.lcs : ℚ) : ℝ) = 0.1 := by norm_num [weights]
  have hw5 : ((weights.cosine : ℚ) : ℝ) = 0.05 := by norm_num [weights]
  have hws : ((pitch_weight_sum : ℚ) : ℝ) = 0.7 := by norm_num [pitch_weight_sum, weights]
  rw [compareOkBody]
  dsimp only
  rw [hw1, hw2, hw3, hw4, hw5, hws]
  refine ⟨?_, hpa, ?_, ?_⟩
  · cases hht : hasTiming t1 t2 d1 d2 with
    | true =>
      simp only [hht, if_true]
      exact rpow_mem_unit _ (by nlinarith [hcomb.1, hpitch.1, htim.1, hlev.1, hlcs.1])
        (by nlinarith [hpitch.2, htim.2, hlev.2, hlcs.2, hpitch.1, htim.1, hlev.1, hlcs.1])
        _ (by norm_num)
    | false =>
      simp only [hht, Bool.false_eq_true, if_false]
      refine rpow_mem_unit _ ?_ ?_ _ (by norm_num)
      · refine div_nonneg ?_ (by norm_num)
        nlinarith [hpitch.1, hlev.1, hlcs.1]
      · rw [div_le_one (by norm_num)]
        nlinarith [hpitch.2, hlev.2, hlcs.2, hpitch.1, hlev.1, hlcs.1]
  · split
    · exact htim
    · norm_num
  · intro s hs
    rw [Option.some_inj] at hs
    subst hs
    exact ⟨hcomb, hpitch, htim, hlev, hlcs, hv0, hv1⟩

/-- C2: for valid (non-negative-pitch) inputs every similarity/accuracy
value returned by `compare_melodies` — the final score, the pitch and
timing accuracies, and every entry of `individual_scores` — lies in the
closed interval `[0,1]`; and `compare_melodies([], [])` returns the
degenerate result with final score exactly 0.0 and an empty note-detail
list. -/
theorem compare_scores_bounded :
    (∀ (m1 m2 : List ℤ) (t1 t2 d1 d2 : Option (List ℚ)) (r : CompareResult),
      (∀ p ∈ m1, 0 ≤ p) → (∀ p ∈ m2, 0 ≤ p) →
      compare_melodies m1 m2 t1 t2 d1 d2 = Except.ok r →
      (0 ≤ r.final_score ∧ r.final_score ≤ 1) ∧
        (0 ≤ r.pitch_accuracy ∧ r.pitch_accuracy ≤ 1) ∧
        (0 ≤ r.timing_accuracy ∧ r.timing_accuracy ≤ 1) ∧
        (∀ s, r.individual_scores = some s →
          (0 ≤ s.dtw_combined ∧ s.dtw_combined ≤ 1) ∧
          (0 ≤ s.dtw_pitch ∧ s.dtw_pitch ≤ 1) ∧
          (0 ≤ s.dtw_timing ∧ s.dtw_timing ≤ 1) ∧
          (0 ≤ s.levenshtein ∧ s.levenshtein ≤ 1) ∧
          (0 ≤ s.lcs ∧ s.lcs ≤ 1) ∧
          (0 ≤ s.cosine ∧ s.cosine ≤ 1))) ∧
      (compare_melodies [] [] none none none none = Except.ok zeroCompareResult ∧
        zeroCompareResult.final_score = 0 ∧ zeroCompareResult.note_details = []) := by
  constructor
  · intro m1 m2 t1 t2 d1 d2 r h1 h2 hr
    rw [compare_melodies] at hr
    by_cases he : m1.isEmpty || m2.isEmpty
    · rw [if_pos he] at hr
      have := Except.ok.inj hr
      subst this
      refine ⟨⟨le_refl 0, zero_le_one⟩, ⟨le_refl 0, zero_le_one⟩, ⟨le_refl 0, zero_le_one⟩, ?_⟩
      intro s hs
      cases hs
    · rw [if_neg he] at hr
      obtain ⟨v, hok, hv0, hv1, _, _⟩ := cosine_similarity_spec m1 m2 h1 h2
      rw [hok] at hr
      dsimp only at hr
      have := Except.ok.inj hr
      subst this
      exact compareOkBody_bounds m1 m2 t1 t2 d1 d2 v hv0 hv1
  · exact ⟨rfl, rfl, rfl⟩

/-- C2 (witness): the bounds theorem applied at the concrete empty input
pair, whose result is the degenerate zero record. -/
theorem compare_scores_bounded_witness :
    0 ≤ zeroCompareResult.final_score ∧ zeroCompareResult.final_score ≤ 1 :=
  (compare_scores_bounded.1 [] [] none none none none zeroCompareResult
    (by intro p hp; cases hp) (by intro p hp; cases hp) rfl).1

/-! ## Unfolding equations for `compare_melodies` -/

theorem hasTiming_none : hasTiming none none none none = false := rfl

theorem compare_melodies_ok_eq (m1 m2 : List ℤ) (t1 t2 d1 d2 : Option (List ℚ)) (v : ℝ)
    (h1 : m1 ≠ []) (h2 : m2 ≠ [])
    (hok : cosine_similarity m1 m2 = Except.ok v) :
    compare_melodies m1 m2 t1 t2 d1 d2 =
      Except.ok (compareOkBody m1 m2 t1 t2 d1 d2 v) := by
  have hne : ¬(m1.isEmpty || m2.isEmpty) = true := by
    simp [List.isEmpty_iff, h1, h2]
  rw [compare_melodies, if_neg hne, hok]

theorem compareOkBody_scores_eq (m1 m2 : List ℤ) (t1 t2 d1 d2 : Option (List ℚ)) (v : ℝ) :
    (compareOkBody m1 m2 t1 t2 d1 d2 v).individual_scores =
      some
        { dtw_combined := (dtw_distance m1 m2 t1 t2 d1 d2 0.6 0.4).1
          dtw_pitch := (dtw_distance m1 m2 t1 t2 d1 d2 0.6 0.4).2.1
          dtw_timing := (dtw_distance m1 m2 t1 t2 d1 d2 0.6 0.4).2.2.1
          levenshtein := normalize_score ((levenshtein_distance m1 m2 : ℕ) : ℚ)
            (((max m1.length m2.length : ℕ)) : ℚ)
          lcs := (((if 0 < min m1.length m2.length then
              (lcs_length m1 m2 : ℚ) / (((min m1.length m2.length : ℕ)) : ℚ)
            else 0 : ℚ)) : ℝ) ^ (1.5 : ℝ)
          cosine := v } := rfl

theorem compareOkBody_pitch_accuracy_eq (m1 m2 : List ℤ) (t1 t2 d1 d2 : Option (List ℚ))
    (v : ℝ) :
    (compareOkBody m1 m2 t1 t2 d1 d2 v).pitch_accuracy =
      (((if 0 < (dtw_distance m1 m2 t1 t2 d1 d2 0.6 0.4).2.2.2.length then
          (((dtw_distance m1 m2 t1 t2 d1 d2 0.6 0.4).2.2.2.countP
              (fun d => d.is_correct_pitch) : ℕ) : ℚ) /
            (((dtw_distance m1 m2 t1 t2 d1 d2 0.6 0.4).2.2.2.length : ℕ) : ℚ)
        else 0 : ℚ)) : ℝ) ^ (1.3 : ℝ) := rfl

/-- Without timing data, the final score of the non-short-circuit result is
the weighted pitch/levenshtein/lcs/cosine sum renormalized by 0.7 and
raised to the 1.15 power. -/
theorem compareOkBody_final_score_no_timing (m1 m2 : List ℤ) (v : ℝ) :
    (compareOkBody m1 m2 none none none none v).final_score =
      ((0.4 * (dtw_distance m1 m2 none none none none 0.6 0.4).2.1 +
          0.15 * normalize_score ((levenshtein_distance m1 m2 : ℕ) : ℚ)
            (((max m1.length m2.length : ℕ)) : ℚ) +
          0.1 * ((((if 0 < min m1.length m2.length then
              (lcs_length m1 m2 : ℚ) / (((min m1.length m2.length : ℕ)) : ℚ)
            else 0 : ℚ)) : ℝ) ^ (1.5 : ℝ)) +
          0.05 * v) / 0.70) ^ (1.15 : ℝ) := by
  rw [compareOkBody]
  dsimp only
  simp only [hasTiming_none, Bool.false_eq_true, if_false]
  norm_num [weights, pitch_weight_sum]

/-- C4: with no timing data supplied, the final score equals the weighted
sum `0.4*dtwPitch + 0.15*levenshtein + 0.1*lcs + 0.05*cosine` of the
returned individual scores, divided by the remaining weight mass 0.70, and
raised to the 1.15 power. -/
theorem final_score_formula_no_timing (m1 m2 : List ℤ) (r : CompareResult)
    (s : IndividualScores) (h1 : m1 ≠ []) (h2 : m2 ≠ [])
    (hr : compare_melodies m1 m2 none none none none = Except.ok r)
    (hs : r.individual_scores = some s) :
    r.final_score =
      ((0.4 * s.dtw_pitch + 0.15 * s.levenshtein + 0.1 * s.lcs + 0.05 * s.cosine) / 0.70) ^
        (1.15 : ℝ) := by
  rcases hcos : cosine_similarity m1 m2 with e | v
  · rw [compare_melodies] at hr
    have hne : ¬(m1.isEmpty || m2.isEmpty) = true := by
      simp [List.isEmpty_iff, h1, h2]
    rw [if_neg hne, hcos] at hr
    cases hr
  · rw [compare_melodies_ok_eq m1 m2 none none none none v h1 h2 hcos] at hr
    have hbody := Except.ok.inj hr
    subst hbody
    rw [compareOkBody_scores_eq] at hs
    rw [Option.some_inj] at hs
    subst hs
    rw [compareOkBody_final_score_no_timing]

/-- C4 (witness): the renormalized-formula theorem at `([60], [60])`. -/
theorem final_score_formula_no_timing_witness :
    ∃ r s, compare_melodies [60] [60] none none none none = Except.ok r ∧
      r.individual_scores = some s ∧
      r.final_score =
        ((0.4 * s.dtw_pitch + 0.15 * s.levenshtein + 0.1 * s.lcs + 0.05 * s.cosine) / 0.70) ^
          (1.15 : ℝ) := by
  obtain ⟨v, hok, _⟩ := cosine_similarity_spec [60] [60] (by decide) (by decide)
  have hco := compare_melodies_ok_eq [60] [60] none none none none v
    (by decide) (by decide) hok
  exact ⟨_, _, hco, compareOkBody_scores_eq [60] [60] none none none none v,
    final_score_formula_no_timing [60] [60] _ _ (by decide) (by decide) hco
      (compareOkBody_scores_eq [60] [60] none none none none v)⟩

/-! ## The identity comparison -/

theorem histDot_self (a : List ℕ) (N : ℕ) : histDot a a N = histNormSq a N := by
  rw [histDot, histNormSq]
  refine Finset.sum_congr rfl fun v _ => ?_
  ring

/-- Comparing a non-empty melody of non-negative pitches with itself gives
cosine similarity exactly 1. -/
theorem cosine_self_eq_one (M : List ℤ) (hne : M ≠ []) (h0 : ∀ p ∈ M, 0 ≤ p) :
    cosine_similarity M M = Except.ok 1 := by
  obtain ⟨v, hok, _, _, _, hval⟩ := cosine_similarity_spec M M h0 h0
  obtain ⟨hden, hv⟩ := hval hne hne
  have ha_ne : M.map Int.toNat ≠ [] := fun h => hne (List.map_eq_nil_iff.mp h)
  have hpos : 0 < histNormSq (M.map Int.toNat) (cosMaxNote M M).toNat :=
    histNormSq_pos _ _ ha_ne (map_toNat_lt M _ h0 (fun p hp => lt_cosMaxNote_left M M p hp))
  have hposR : (0 : ℝ) < ((histNormSq (M.map Int.toNat) (cosMaxNote M M).toNat : ℚ) : ℝ) := by
    exact_mod_cast hpos
  rw [hok]
  congr 1
  rw [hv, histDot_self, Real.mul_self_sqrt (le_of_lt hposR), div_self (ne_of_gt hposR)]
  exact Real.one_rpow _

/-- The normalized pitch DTW similarity of a melody against itself is 1
(the pitch matrix vanishes along the diagonal). -/
theorem dtw_distance_pitch_self (M : List ℤ) (t1 t2 d1 d2 : Option (List ℚ)) (pw tw : ℚ) :
    (dtw_distance M M t1 t2 d1 d2 pw tw).2.1 = 1 := by
  rw [dtw_distance]
  dsimp only
  have hpm : pitch_matrix M M M.length M.length = ((0 : ℚ) : WithTop ℚ) := by
    rw [pitch_matrix, dtwDP_diag_zero _ (pitchStep_nonneg M M) (pitchStep_self_diag M) M.length]
    exact WithTop.coe_zero.symm
  rw [hpm, capDiv_coe_zero]
  have h1 : ((1 - 0 : ℚ) : ℝ) = 1 := by norm_num
  rw [h1, Real.one_rpow]

/-- The normalized Levenshtein similarity of a melody against itself is 1. -/
theorem normalize_lev_self (M : List ℤ) (hne : M ≠ []) :
    normalize_score ((levenshtein_distance M M : ℕ) : ℚ)
      (((max M.length M.length : ℕ)) : ℚ) = 1 := by
  have h0 : levenshtein_distance M M = 0 := levMat_self_diag M M.length
  have hlen : 0 < M.length := List.length_pos.mpr hne
  rw [h0, normalize_score]
  have hpos : (0 : ℚ) < ((max M.length M.length : ℕ) : ℚ) := by
    rw [max_self]
    exact_mod_cast hlen
  rw [if_pos hpos]
  have h1 : ((1 - ((0 : ℕ) : ℚ) / ((max M.length M.length : ℕ) : ℚ) : ℚ) : ℝ) = 1 := by
    norm_num
  rw [h1, Real.one_rpow]

/-- The normalized LCS similarity of a melody against itself is 1. -/
theorem normalized_lcs_self (M : List ℤ) (hne : M ≠ []) :
    (((if 0 < min M.length M.length then
        (lcs_length M M : ℚ) / (((min M.length M.length : ℕ)) : ℚ)
      else 0 : ℚ)) : ℝ) ^ (1.5 : ℝ) = 1 := by
  have hl : lcs_length M M = M.length := lcsMat_self_diag M M.length
  have hlen : 0 < M.length := List.length_pos.mpr hne
  rw [hl]
  simp only [min_self]
  rw [if_pos hlen]
  rw [div_self (by exact_mod_cast hlen.ne' : ((M.length : ℕ) : ℚ) ≠ 0)]
  have h1 : ((1 : ℚ) : ℝ) = 1 := by norm_num
  rw [h1, Real.one_rpow]

/-- C3: comparing any non-empty melody (of non-negative pitches) with
itself and no timing data yields a final score of exactly 1.0, and the
normalized levenshtein, lcs and cosine scores are each exactly 1.0. -/
theorem compare_identity (M : List ℤ) (hne : M ≠ []) (h0 : ∀ p ∈ M, 0 ≤ p) :
    ∃ r s, compare_melodies M M none none none none = Except.ok r ∧
      r.individual_scores = some s ∧ r.final_score = 1 ∧
      s.levenshtein = 1 ∧ s.lcs = 1 ∧ s.cosine = 1 := by
  have hcos := cosine_self_eq_one M hne h0
  have hco := compare_melodies_ok_eq M M none none none none 1 hne hne hcos
  refine ⟨_, _, hco, compareOkBody_scores_eq M M none none none none 1, ?_, ?_, ?_, rfl⟩
  · rw [compareOkBody_final_score_no_timing, dtw_distance_pitch_self M none none none none,
      normalize_lev_self M hne, normalized_lcs_self M hne]
    have h1 : (0.4 * 1 + 0.15 * 1 + 0.1 * 1 + 0.05 * (1 : ℝ)) / 0.70 = 1 := by norm_num
    rw [h1, Real.one_rpow]
  · exact normalize_lev_self M hne
  · exact normalized_lcs_self M hne

/-- C3 (witness): the identity theorem at the concrete melody `[60]`. -/
theorem compare_identity_witness :
    ∃ r s, compare_melodies [60] [60] none none none none = Except.ok r ∧
      r.individual_scores = some s ∧ r.final_score = 1 ∧
      s.levenshtein = 1 ∧ s.lcs = 1 ∧ s.cosine = 1 :=
  compare_identity [60] (by decide) (by decide)

/-! ## The single-note scenarios -/

/-- For 1×1 inputs the traceback immediately takes the diagonal to `(0,0)`. -/
theorem dtw_path_one_one (step : ℕ → ℕ → ℚ) : dtw_path (dtwDP step) 1 1 = [(0, 0)] := by
  rw [dtw_path]
  have h : tracebackAux (dtwDP step) 2 1 1 = [(0, 0)] := by
    rw [tracebackAux]
    norm_num [min_eq_left le_top, min_self, dtwDP_zero_zero, dtwDP_zero_succ, dtwDP_succ_zero]
    rfl
  rw [h]
  rfl

theorem single_note_match :
    ∃ r, compare_melodies [60] [60] none none none none = Except.ok r ∧ r.final_score = 1 := by
  have hcos := cosine_self_eq_one [60] (by decide) (by decide)
  have hco := compare_melodies_ok_eq [60] [60] none none none none 1 (by decide) (by decide) hcos
  refine ⟨_, hco, ?_⟩
  rw [compareOkBody_final_score_no_timing, dtw_distance_pitch_self [60] none none none none,
    normalize_lev_self [60] (by decide), normalized_lcs_self [60] (by decide)]
  have h1 : (0.4 * 1 + 0.15 * 1 + 0.1 * 1 + 0.05 * (1 : ℝ)) / 0.70 = 1 := by norm_num
  rw [h1, Real.one_rpow]

theorem single_note_mismatch :
    ∃ r, compare_melodies [60] [72] none none none none = Except.ok r ∧
      r.final_score < 1 ∧ r.pitch_accuracy = 0 := by
  obtain ⟨v, hok, _, _, _, hval⟩ := cosine_similarity_spec [60] [72] (by decide) (by decide)
  obtain ⟨hden, hv⟩ := hval (by decide) (by decide)
  have hdot : histDot ([60].map Int.toNat) ([72].map Int.toNat) (cosMaxNote [60] [72]).toNat = 0 := by
    rw [histDot]
    refine Finset.sum_eq_zero fun w _ => ?_
    by_cases hw : w = 60
    · subst hw
      have h : List.count 60 (List.map Int.toNat [72]) = 0 := by decide
      rw [h]
      norm_num
    · have h : List.count w (List.map Int.toNat [60]) = 0 := by
        have h60 : List.map Int.toNat [60] = [60] := by decide
        rw [h60]
        simp [List.count_cons, List.count_nil, hw]
      rw [h]
      norm_num
  have hv0 : v = 0 := by
    rw [hv, hdot, Rat.cast_zero, zero_div]
    exact Real.zero_rpow (by norm_num)
  rw [hv0] at hok
  have hco := compare_melodies_ok_eq [60] [72] none none none none 0 (by decide) (by decide) hok
  refine ⟨_, hco, ?_, ?_⟩
  · rw [compareOkBody_final_score_no_timing]
    have hdp : (dtw_distance [60] [72] none none none none 0.6 0.4).2.1 = 0 := by
      rw [dtw_distance]
      dsimp only
      have hpm : pitch_matrix [60] [72] ([60] : List ℤ).length ([72] : List ℤ).length =
          ((0.75 : ℚ) : WithTop ℚ) := by
        rw [pitch_matrix]
        show dtwDP (pitchStep [60] [72]) 1 1 = ((0.75 : ℚ) : WithTop ℚ)
        rw [dtwDP_succ_succ, dtwDP_zero_succ, dtwDP_succ_zero, dtwDP_zero_zero]
        rw [min_eq_right le_top, min_eq_right le_top, add_zero]
        norm_num [pitchStep, List.getD]
      rw [hpm, capDiv_coe]
      norm_num [adjusted_max_dist]
    have hld : levenshtein_distance [60] [72] = 1 := by decide
    have hnl : normalize_score ((levenshtein_distance [60] [72] : ℕ) : ℚ)
        (((max ([60] : List ℤ).length ([72] : List ℤ).length : ℕ)) : ℚ) = 0 := by
      rw [hld, normalize_score]
      norm_num
    have hlc : lcs_length [60] [72] = 0 := by decide
    have hnlcs : (((if 0 < min ([60] : List ℤ).length ([72] : List ℤ).length then
        (lcs_length [60] [72] : ℚ) / (((min ([60] : List ℤ).length ([72] : List ℤ).length : ℕ)) : ℚ)
      else 0 : ℚ)) : ℝ) ^ (1.5 : ℝ) = 0 := by
      rw [hlc]
      norm_num
    rw [hdp, hnl, hnlcs]
    have hz : (0.4 * 0 + 0.15 * 0 + 0.1 * 0 + 0.05 * (0 : ℝ)) / 0.70 = 0 := by norm_num
    rw [hz, Real.zero_rpow (by norm_num)]
    exact zero_lt_one
  · rw [compareOkBody_pitch_accuracy_eq]
    have hdetails : (dtw_distance [60] [72] none none none none 0.6 0.4).2.2.2 =
        noteDetails [60] [72] none none none none [(0, 0)] := by
      rw [dtw_distance_details_eq, dtw_matrix]
      rw [show ([60] : List ℤ).length = 1 from rfl, show ([72] : List ℤ).length = 1 from rfl]
      rw [dtw_path_one_one]
    rw [hdetails]
    have hcount : (noteDetails [60] [72] none none none none [(0, 0)]).countP
        (fun d => d.is_correct_pitch) = 0 := by decide
    have hlen : (noteDetails [60] [72] none none none none [(0, 0)]).length = 1 := by decide
    rw [hcount, hlen]
    norm_num

/-- C7: `compare_melodies([60], [60])` with no timing data returns a final
score of exactly 1.0, while `compare_melodies([60], [72])` returns a final
score strictly less than 1.0 and a pitch accuracy of exactly 0.0. -/
theorem single_note_scenarios :
    (∃ r, compare_melodies [60] [60] none none none none = Except.ok r ∧ r.final_score = 1) ∧
      (∃ r, compare_melodies [60] [72] none none none none = Except.ok r ∧
        r.final_score < 1 ∧ r.pitch_accuracy = 0) :=
  ⟨single_note_match, single_note_mismatch⟩

/-! ## Structure of the traceback path -/

theorem tracebackAux_succ (M : ℕ → ℕ → WithTop ℚ) (fuel i j : ℕ) :
    tracebackAux M (fuel + 1) (i + 1) (j + 1) =
      (i, j) ::
        (if min (M i j) (min (M i (j + 1)) (M (i + 1) j)) = M i j then
          tracebackAux M fuel i j
        else if min (M i j) (min (M i (j + 1)) (M (i + 1) j)) = M i (j + 1) then
          tracebackAux M fuel i (j + 1)
        else tracebackAux M fuel (i + 1) j) := rfl

theorem tracebackAux_zero_left (M : ℕ → ℕ → WithTop ℚ) (fuel j : ℕ) :
    tracebackAux M fuel 0 j = [] := by
  cases fuel <;> rfl

theorem tracebackAux_zero_right (M : ℕ → ℕ → WithTop ℚ) (fuel i : ℕ) :
    tracebackAux M fuel i 0 = [] := by
  cases fuel with
  | zero => rfl
  | succ fuel => cases i <;> rfl

theorem traceback_cons_prop (R : ℕ × ℕ → ℕ × ℕ → Prop) (p q : ℕ × ℕ)
    (rest : List (ℕ × ℕ)) (hhead : rest.head? = some q)
    (hlast : rest.getLast? = some (0, 0)) (hchain : List.Chain' R rest) (hrel : R p q) :
    (p :: rest).head? = some p ∧ (p :: rest).getLast? = some (0, 0) ∧
      List.Chain' R (p :: rest) := by
  cases rest with
  | nil => cases hhead
  | cons c t =>
    rw [List.head?_cons, Option.some_inj] at hhead
    subst hhead
    exact ⟨List.head?_cons, by rw [List.getLast?_cons_cons]; exact hlast,
      List.chain'_cons.mpr ⟨hrel, hchain⟩⟩

/-- The heart of C5: on any matrix of DTW shape, the traceback from an
interior cell `(i+1, j+1)` with enough fuel records `(i, j)` first, ends at
`(0, 0)`, and is coordinatewise non-increasing along the way. -/
theorem tracebackAux_props (step : ℕ → ℕ → ℚ) :
    ∀ fuel i j, i + 1 + (j + 1) ≤ fuel →
      (tracebackAux (dtwDP step) fuel (i + 1) (j + 1)).head? = some (i, j) ∧
        (tracebackAux (dtwDP step) fuel (i + 1) (j + 1)).getLast? = some (0, 0) ∧
        List.Chain' (fun a b : ℕ × ℕ => b.1 ≤ a.1 ∧ b.2 ≤ a.2)
          (tracebackAux (dtwDP step) fuel (i + 1) (j + 1)) := by
  intro fuel
  induction fuel with
  | zero => intro i j hsum; omega
  | succ fuel ih =>
    intro i j hsum
    rw [tracebackAux_succ]
    cases i with
    | zero =>
      cases j with
      | zero =>
        -- cell (1,1): the diagonal (0,0) has value 0, the others are ⊤
        rw [dtwDP_zero_zero, dtwDP_zero_succ, dtwDP_succ_zero, top_inf_eq, inf_top_eq]
        rw [if_pos rfl, tracebackAux_zero_left]
        exact ⟨rfl, rfl, List.chain'_singleton _⟩
      | succ j' =>
        -- cell (1, j'+2): only the left neighbour is finite
        have hL : dtwDP step (0 + 1) (j' + 1) ≠ ⊤ := dtwDP_interior_ne_top step 0 j'
        rw [dtwDP_zero_succ, dtwDP_zero_succ, top_inf_eq, top_inf_eq]
        rw [if_neg hL, if_neg hL]
        obtain ⟨hhead, hlast, hchain⟩ := ih 0 j' (by omega)
        exact traceback_cons_prop _ _ _ _ hhead hlast hchain (by omega)
    | succ i' =>
      cases j with
      | zero =>
        -- cell (i'+2, 1): only the up neighbour is finite
        have hU : dtwDP step (i' + 1) (0 + 1) ≠ ⊤ := dtwDP_interior_ne_top step i' 0
        rw [dtwDP_succ_zero, dtwDP_succ_zero, inf_top_eq, top_inf_eq]
        rw [if_neg hU, if_pos rfl]
        obtain ⟨hhead, hlast, hchain⟩ := ih i' 0 (by omega)
        exact traceback_cons_prop _ _ _ _ hhead hlast hchain (by omega)
      | succ j' =>
        -- cell (i'+2, j'+2): all three neighbours are interior
        split
        · obtain ⟨hhead, hlast, hchain⟩ := ih i' j' (by omega)
          exact traceback_cons_prop _ _ _ _ hhead hlast hchain (by omega)
        · split
          · obtain ⟨hhead, hlast, hchain⟩ := ih i' (j' + 1) (by omega)
            exact traceback_cons_prop _ _ _ _ hhead hlast hchain (by omega)
          · obtain ⟨hhead, hlast, hchain⟩ := ih (i' + 1) j' (by omega)
            exact traceback_cons_prop _ _ _ _ hhead hlast hchain (by omega)

/-- C5: for non-empty inputs, the forward alignment path of the DTW
traceback starts at `(0, 0)`, ends at `(n-1, m-1)`, and is monotonically
non-decreasing in both coordinates. -/
theorem dtw_path_properties (s1 s2 : List ℤ) (t1 t2 d1 d2 : Option (List ℚ)) (pw tw : ℚ)
    (h1 : s1 ≠ []) (h2 : s2 ≠ []) :
    (dtw_path (dtw_matrix s1 s2 t1 t2 d1 d2 pw tw) s1.length s2.length).head? =
        some (0, 0) ∧
      (dtw_path (dtw_matrix s1 s2 t1 t2 d1 d2 pw tw) s1.length s2.length).getLast? =
        some (s1.length - 1, s2.length - 1) ∧
      List.Chain' (fun a b : ℕ × ℕ => a.1 ≤ b.1 ∧ a.2 ≤ b.2)
        (dtw_path (dtw_matrix s1 s2 t1 t2 d1 d2 pw tw) s1.length s2.length) := by
  obtain ⟨n', hn⟩ : ∃ n', s1.length = n' + 1 := by
    have := List.length_pos.mpr h1
    exact ⟨s1.length - 1, by omega⟩
  obtain ⟨m', hm⟩ : ∃ m', s2.length = m' + 1 := by
    have := List.length_pos.mpr h2
    exact ⟨s2.length - 1, by omega⟩
  rw [dtw_path, dtw_matrix, hn, hm]
  obtain ⟨hhead, hlast, hchain⟩ :=
    tracebackAux_props (combinedStep s1 s2 t1 (adjustTimings t1 t2) d1 d2 pw tw)
      (n' + 1 + (m' + 1)) n' m' (le_refl _)
  refine ⟨?_, ?_, ?_⟩
  · rw [List.head?_reverse]
    exact hlast
  · rw [List.getLast?_reverse]
    rw [hhead]
    congr 1
  · rw [List.chain'_reverse]
    exact hchain

/-- C5 (witness): the path-shape theorem at the concrete pair
`([60], [72])` with no timing data. -/
theorem dtw_path_properties_witness :
    (dtw_path (dtw_matrix [60] [72] none none none none 0.6 0.4)
        ([60] : List ℤ).length ([72] : List ℤ).length).head? = some (0, 0) :=
  (dtw_path_properties [60] [72] none none none none 0.6 0.4
    (by decide) (by decide)).1

/-! ## C6: the traceback against the claim's wording -/

/-- Modelled from the claim's wording (C6): starting at `(n, m)`, at each
step move to whichever of `(i-1, j-1)`, `(i-1, j)`, `(i, j-1)` holds the
smallest combined-matrix value, resolving ties by preferring diagonal
first, then up, then left; stop upon reaching row 0 or column 0; the
collected pairs are then reversed into forward order. -/
def tracebackSpecAux (M : ℕ → ℕ → WithTop ℚ) : ℕ → ℕ → ℕ → List (ℕ × ℕ)
  | 0, _, _ => []
  | _ + 1, 0, _ => []
  | _ + 1, _ + 1, 0 => []
  | fuel + 1, i + 1, j + 1 =>
    (i, j) ::
      (if M i j ≤ M i (j + 1) ∧ M i j ≤ M (i + 1) j then tracebackSpecAux M fuel i j
       else if M i (j + 1) ≤ M (i + 1) j then tracebackSpecAux M fuel i (j + 1)
       else tracebackSpecAux M fuel (i + 1) j)

/-- In a linear order, testing `min d (min u l) == d`, then `== u`, then
falling through to `l` (the source's traceback) picks exactly the
least-with-tie-preference neighbour described by the spec. -/
theorem argmin_tie_equiv {α : Type*} [LinearOrder α] (d u l : α) {β : Type*} (X Y Z : β) :
    (if min d (min u l) = d then X else if min d (min u l) = u then Y else Z) =
      (if d ≤ u ∧ d ≤ l then X else if u ≤ l then Y else Z) := by
  by_cases h1 : d ≤ u ∧ d ≤ l
  · rw [if_pos h1, if_pos (min_eq_left (le_min h1.1 h1.2))]
  · rw [if_neg h1]
    have hmlt : min u l < d := by
      rcases not_and_or.mp h1 with h | h
      · exact lt_of_le_of_lt (min_le_left u l) (not_le.mp h)
      · exact lt_of_le_of_lt (min_le_right u l) (not_le.mp h)
    rw [min_eq_right (le_of_lt hmlt), if_neg (ne_of_lt hmlt)]
    by_cases h2 : u ≤ l
    · rw [if_pos h2, if_pos (min_eq_left h2)]
    · rw [if_neg h2,
        if_neg (by rw [min_eq_right (le_of_lt (not_le.mp h2))]; exact ne_of_lt (not_le.mp h2))]

theorem tracebackAux_eq_spec (M : ℕ → ℕ → WithTop ℚ) :
    ∀ fuel i j, tracebackAux M fuel i j = tracebackSpecAux M fuel i j := by
  intro fuel
  induction fuel with
  | zero => intro i j; rfl
  | succ fuel ih =>
    intro i j
    cases i with
    | zero => rfl
    | succ i' =>
      cases j with
      | zero => rfl
      | succ j' =>
        rw [tracebackAux_succ, tracebackSpecAux]
        rw [argmin_tie_equiv (M i' j') (M i' (j' + 1)) (M (i' + 1) j')]
        rw [ih, ih, ih]

/-- C6: the path built by `dtw_distance`'s traceback loop equals the
spec-described procedure: start at `(n, m)`, repeatedly move to the
neighbour with the smallest combined-matrix value (ties preferring
diagonal, then up, then left), stop at row or column 0, and reverse the
collected pairs into forward order. -/
theorem traceback_matches_spec (s1 s2 : List ℤ) (t1 t2 d1 d2 : Option (List ℚ)) (pw tw : ℚ) :
    dtw_path (dtw_matrix s1 s2 t1 t2 d1 d2 pw tw) s1.length s2.length =
      (tracebackSpecAux (dtw_matrix s1 s2 t1 t2 d1 d2 pw tw)
        (s1.length + s2.length) s1.length s2.length).reverse := by
  rw [dtw_path, tracebackAux_eq_spec]

end MelodyMatcher
